import Mathlib

/-!
Verification development for the DocChunker core pipeline.

This file gives a shallow embedding of the two core components of the
repository:

* `reconstruct_hierarchy` — the stack-based hierarchy builder shared verbatim
  by `docchunker/processors/docx_parser.py` (`DocxParser._reconstruct_hierarchy`)
  and `docchunker/processors/pdf_parser.py` (`PdfParser._reconstruct_hierarchy`);
  the two Python methods are line-for-line identical, so one Lean definition
  embeds both.
* `DocumentChunker` — the chunk assembler of
  `docchunker/processors/document_chunker.py`.

Python dictionaries are embedded as the record `NData` (every key the code
reads is a field; keys the code reads with `.get(k, default)` hold that
default when the producing code does not set them).  The in-place mutation of
nodes on `parent_stack` is embedded as a zipper: the stack holds each open
node's data together with the children accumulated so far, and a node is
attached to its parent's child list when it is popped, which yields the same
trees and the same ordering as the Python reference-mutation style (children
are only ever appended at the end of the currently innermost open node).

Token counting (`count_tokens_in_text`) is imported by the chunker from
`docchunker.utils.text_utils` but is not defined anywhere under `src/`; the
spec declares it an injected, external, pure function of the text.  It is
therefore a parameter `tok : String → Nat` of every chunker definition, and
`lenTok` (character count) is the concrete instance used for closed scenarios.
-/

/-- The `type` tag of an element/node dictionary.  The source compares the
tag against the five known strings; `other` stands for any other value
(including a missing tag), which every branch of the source skips. -/
inductive NType where
  | heading
  | paragraph
  | listItem
  | table
  | listContainer
  | other
deriving DecidableEq, Repr

/-- The data of one element dictionary: every key the core pipeline reads.
`level` is the heading level (headings) or the 0-indexed `ilvl` (list items);
`numId` is the list-group id (−1 = unknown/fallback); `header`/`dataRows`
back the chunker's `node.get('header', [])` / `node.get('data_rows', [])`
(empty when the producing parser does not set them, exactly the `.get`
defaults). -/
structure NData where
  typ : NType
  level : Int
  numId : Int
  content : String
  header : List String
  dataRows : List (List String)
deriving DecidableEq, Repr

/-- A node of the reconstructed tree: element data plus `children`
(`{**element_data, 'children': []}` in the source). -/
inductive Node where
  | node : NData → List Node → Node
deriving Repr

def Node.data : Node → NData
  | .node d _ => d

def Node.children : Node → List Node
  | .node _ cs => cs

/-- A stack entry of the hierarchy builder: an open node's data and the
children attached to it so far. -/
structure Frame where
  data : NData
  children : List Node
deriving Repr

/-- Close the innermost open node: build it and attach it to the node below
it on the stack (or to the root list when it is the bottom entry). -/
def closeTop : List Node × List Frame → List Node × List Frame
  | (roots, []) => (roots, [])
  | (roots, f :: rest) =>
    match rest with
    | [] => (roots ++ [Node.node f.data f.children], [])
    | g :: r2 => (roots, ⟨g.data, g.children ++ [Node.node f.data f.children]⟩ :: r2)

/-- Pop (close) stack entries from the top while the predicate holds of the
top entry's data; embeds the three `while parent_stack and ...: pop` loops. -/
def popWhile (p : NData → Bool) : List Node → List Frame → List Node × List Frame
  | roots, [] => (roots, [])
  | roots, f :: rest =>
    if p f.data then
      match rest with
      | [] => popWhile p (roots ++ [Node.node f.data f.children]) []
      | g :: r2 => popWhile p roots (⟨g.data, g.children ++ [Node.node f.data f.children]⟩ :: r2)
    else (roots, f :: rest)
termination_by _ st => st.length

/-- Pop condition for an incoming heading of level `lvl`: the stack top is a
heading of level ≥ `lvl`, or a list container / list item. -/
def headingPopP (lvl : Int) (d : NData) : Bool :=
  (d.typ == .heading && decide (d.level ≥ lvl)) || d.typ == .listContainer || d.typ == .listItem

/-- Pop condition for an incoming paragraph/table: the top is a list item or
list container. -/
def blockPopP (d : NData) : Bool :=
  d.typ == .listContainer || d.typ == .listItem

/-- Pop condition for an incoming list item of `ilvl` `I` and group `G`: pop
everything that is not a valid stopping point — a container of group `G` with
level ≤ `I`, a list item of group `G` with level < `I`, or a heading. -/
def itemPopP (I G : Int) (d : NData) : Bool :=
  !((d.typ == .listContainer && d.numId == G && decide (d.level ≤ I)) ||
    (d.typ == .listItem && d.numId == G && decide (I > d.level)) ||
    d.typ == .heading)

/-- The data of a synthesized `list_container` node for an item of level
`I` / group `G` (the source builds `{'type': 'list_container', 'level': I,
'num_id': G, 'children': [item]}`; the item itself is pushed above the
container, so it becomes the container's first child on close). -/
def containerData (e : NData) : NData :=
  ⟨.listContainer, e.level, e.numId, "", [], []⟩

/-- One step of `_reconstruct_hierarchy`'s main loop for one flat element. -/
def step (s : List Node × List Frame) (e : NData) : List Node × List Frame :=
  match e.typ with
  | .heading =>
    let (roots, stk) := popWhile (headingPopP e.level) s.1 s.2
    (roots, ⟨e, []⟩ :: stk)
  | .listItem =>
    let (roots, stk) := popWhile (itemPopP e.level e.numId) s.1 s.2
    match stk with
    | f :: _ =>
      if f.data.typ = .listContainer ∧ f.data.numId = e.numId ∧ f.data.level = e.level then
        (roots, ⟨e, []⟩ :: stk)
      else
        (roots, ⟨e, []⟩ :: ⟨containerData e, []⟩ :: stk)
    | [] => (roots, [⟨e, []⟩, ⟨containerData e, []⟩])
  | .paragraph | .table =>
    let (roots, stk) := popWhile blockPopP s.1 s.2
    match stk with
    | [] => (roots ++ [Node.node e []], [])
    | f :: r => (roots, ⟨f.data, f.children ++ [Node.node e []]⟩ :: r)
  | _ => s

/-- Run the builder loop over a flat element list from a given state. -/
def runM (s : List Node × List Frame) (els : List NData) : List Node × List Frame :=
  els.foldl step s

/-- Close every remaining open node at the end of the pass. -/
def closeAll : List Node → List Frame → List Node
  | roots, [] => roots
  | roots, f :: rest =>
    match rest with
    | [] => closeAll (roots ++ [Node.node f.data f.children]) []
    | g :: r2 => closeAll roots (⟨g.data, g.children ++ [Node.node f.data f.children]⟩ :: r2)
termination_by _ st => st.length

/-- `_reconstruct_hierarchy` (identical in `docx_parser.py` and
`pdf_parser.py`): fold the flat elements through the stack machine and close
all still-open scopes. -/
def reconstruct_hierarchy (els : List NData) : List Node :=
  closeAll (runM ([], []) els).1 (runM ([], []) els).2

/-! ### The chunk assembler (`document_chunker.py`) -/

/-- Chunk metadata; `hasOverlap`/`overlapElements` are `none` for chunk kinds
whose metadata dictionary does not contain those keys (paragraph and
table-header-only chunks). -/
structure ChunkMetadata where
  documentId : String
  sourceType : String
  nodeType : String
  headings : List String
  numTokens : Nat
  hasOverlap : Option Bool
  overlapElements : Option Int
deriving DecidableEq, Repr

/-- `Chunk` of `docchunker/models/chunk.py`: text plus metadata. -/
structure Chunk where
  text : String
  metadata : ChunkMetadata
deriving DecidableEq, Repr

/-- `DocumentChunker.__init__`: the constructor stores the two configuration
integers; the source body performs no validation and cannot raise. -/
structure DocumentChunker where
  chunk_size : Int
  num_overlapping_elements : Int
deriving DecidableEq, Repr

/-- The concrete token counter used for closed scenarios: character count.
Modelled from the spec: `count_tokens_in_text` is an injected external pure
function of the text (its definition is not under `src/`). -/
def lenTok (s : String) : Nat :=
  s.length

/-- The indentation string `"  " * indent_level`. -/
def indentStr (n : Nat) : String :=
  String.join (List.replicate n "  ")

/-- `_stringify_node_content`: recursively stringify a node and its children
(no heading context). -/
def stringify_node_content : Node → Nat → String
  | .node d cs, ind =>
    let ind_s := indentStr ind
    let own : List String :=
      match d.typ with
      | .paragraph => [ind_s ++ d.content]
      | .listItem =>
        let marker : String :=
          if d.numId = -1 ∨ d.level % 2 = 0 then "- " else toString (d.level + 1) ++ ". "
        [ind_s ++ marker ++ d.content]
      | .table => [ind_s ++ "Table:\n" ++ ind_s ++ d.content.replace "\n" ("\n" ++ ind_s)]
      | .heading => [ind_s ++ "H" ++ toString d.level ++ ": " ++ d.content]
      | .listContainer => []
      | .other => []
    let childInd := if d.typ = .listItem ∨ d.typ = .listContainer then ind + 1 else ind
    let childParts := cs.attach.map (fun c => stringify_node_content c.1 childInd)
    "\n".intercalate ((own ++ childParts).filter (fun s => s ≠ ""))
termination_by n _ => sizeOf n
decreasing_by
  simp_wf
  have h := List.sizeOf_lt_of_mem c.2
  omega

/-- Python truthiness of `s.strip()`: `false` iff every character of `s` is
whitespace (the source only ever uses `.strip()` as an emptiness test). -/
def isBlank (s : String) : Bool :=
  s.data.all Char.isWhitespace

/-- `_create_chunk_text`: prepend the formatted non-blank headings, joined by
newlines and separated from the content by `"\n---\n"`. -/
def create_chunk_text (headings : List String) (content : String) : String :=
  if headings = [] then content
  else
    let formatted := (headings.enum.filter (fun p => isBlank p.2 = false)).map
      (fun p => "H" ++ toString (p.1 + 1) ++ ": " ++ p.2)
    if formatted = [] then content
    else "\n".intercalate formatted ++ "\n---\n" ++ content

/-- `_format_table_row` on well-typed rows (every cell a string): matched
header → `"h: c"` cells joined by `" | "`; missing or length-mismatched
header → plain `" | "` join of the row. -/
def format_table_row (header row : List String) : String :=
  if header = [] ∨ header.length ≠ row.length then
    " | ".intercalate row
  else
    " | ".intercalate ((header.zip row).map (fun p => p.1 ++ ": " ++ p.2))

/-- A dynamically-typed table cell: a Python string, or any other Python
value (carrying its `str()` rendering, which is what an f-string inserts). -/
inductive Cell where
  | str : String → Cell
  | other : String → Cell
deriving DecidableEq, Repr

def Cell.isStr : Cell → Bool
  | .str _ => true
  | .other _ => false

def cellToString : Cell → String
  | .str s => s
  | .other r => r

/-- `_format_table_row` on dynamically-typed rows.  The fallback path uses
`" | ".join(row_data)`, which raises `TypeError` on any non-string cell and
is converted to `ValueError("Row data must be a list of strings.")`; the
header path formats each cell through an f-string, which stringifies any
value and never raises. -/
def format_table_row_dyn (header : List String) (row : List Cell) : Except String String :=
  if header = [] ∨ header.length ≠ row.length then
    if row.all (fun c => c.isStr) then
      .ok (" | ".intercalate (row.map cellToString))
    else
      .error "Row data must be a list of strings."
  else
    .ok (" | ".intercalate ((header.zip row).map (fun p => p.1 ++ ": " ++ cellToString p.2)))

/-- Count of already-emitted chunks of one `node_type`
(`len([c for c in chunks if c.metadata.get("node_type") == ntype])`). -/
def countType (chunks : List Chunk) (ntype : String) : Nat :=
  (chunks.filter (fun c => c.metadata.nodeType == ntype)).length

/-- The chunk flushed from the current batch: joined fragment texts under the
heading prefix, with first-chunk detection by counting previously emitted
chunks of the same `node_type` in the output so far. -/
def flushChunk (tok : String → Nat) (no : Int) (ntype : String) (headings : List String)
    (docId srcFmt : String) (parts : List String) (batchLen : Nat) (chunksSoFar : List Chunk) :
    Chunk :=
  let contentStr := "\n".intercalate parts
  let finalText := create_chunk_text headings contentStr
  let isFirst := countType chunksSoFar ntype = 0
  { text := finalText
    metadata :=
      { documentId := docId
        sourceType := srcFmt
        nodeType := ntype
        headings := headings
        numTokens := tok finalText
        hasOverlap := some (decide (¬ isFirst ∧ no > 0))
        overlapElements := some (if isFirst then 0 else min no (batchLen : Int)) } }

/-- The trailing elements seeded into the next batch after a flush:
`batch[-no:]` when `no > 0` and the batch has at least `no` elements,
otherwise the empty seed. -/
def seedOf {α : Type} (no : Int) (b : List α) : List α :=
  if 0 < no ∧ no ≤ (b.length : Int) then b.drop (b.length - no.toNat) else []

/-- The shared greedy token-bounded splitting loop of `_process_table_node`
and `_process_list_container` (the two Python loops are identical up to the
fragment function and the `node_type` string).  State: remaining elements,
current batch, fragment texts of the batch, running content-token counter,
and the chunk list built so far. -/
def splitLoop {α : Type} (tok : String → Nat) (S no : Int) (frag : α → String)
    (ntype : String) (headings : List String) (ht : Nat) (docId srcFmt : String) :
    List α → List α → List String → Nat → List Chunk → List Chunk
  | [], batch, parts, _, chunks =>
    if batch.isEmpty then chunks
    else chunks ++ [flushChunk tok no ntype headings docId srcFmt parts batch.length chunks]
  | e :: rest, batch, parts, ct, chunks =>
    let ftext := frag e
    let ftok := tok ftext
    if ¬ batch.isEmpty ∧ ((ht + ct + ftok + tok "\n" : Nat) : Int) > S then
      let chunks2 := chunks ++ [flushChunk tok no ntype headings docId srcFmt parts batch.length chunks]
      let seed := seedOf no batch
      let parts2 := seed.map frag
      let ct2 := tok ("\n".intercalate parts2)
      splitLoop tok S no frag ntype headings ht docId srcFmt rest
        (seed ++ [e]) (parts2 ++ [ftext])
        (ct2 + ftok + (if parts2.length + 1 > 1 then tok "\n" else 0)) chunks2
    else
      splitLoop tok S no frag ntype headings ht docId srcFmt rest
        (batch ++ [e]) (parts ++ [ftext])
        (ct + ftok + (if parts.length + 1 > 1 then tok "\n" else 0)) chunks

/-- Instrumented variant of `splitLoop` that additionally returns the batch
behind each flushed chunk, in flush order; its first component agrees with
`splitLoop` (`splitLoopB_fst`). -/
def splitLoopB {α : Type} (tok : String → Nat) (S no : Int) (frag : α → String)
    (ntype : String) (headings : List String) (ht : Nat) (docId srcFmt : String) :
    List α → List α → List String → Nat → List Chunk → List Chunk × List (List α)
  | [], batch, parts, _, chunks =>
    if batch.isEmpty then (chunks, [])
    else (chunks ++ [flushChunk tok no ntype headings docId srcFmt parts batch.length chunks], [batch])
  | e :: rest, batch, parts, ct, chunks =>
    let ftext := frag e
    let ftok := tok ftext
    if ¬ batch.isEmpty ∧ ((ht + ct + ftok + tok "\n" : Nat) : Int) > S then
      let chunks2 := chunks ++ [flushChunk tok no ntype headings docId srcFmt parts batch.length chunks]
      let seed := seedOf no batch
      let parts2 := seed.map frag
      let ct2 := tok ("\n".intercalate parts2)
      let out := splitLoopB tok S no frag ntype headings ht docId srcFmt rest
        (seed ++ [e]) (parts2 ++ [ftext])
        (ct2 + ftok + (if parts2.length + 1 > 1 then tok "\n" else 0)) chunks2
      (out.1, batch :: out.2)
    else
      splitLoopB tok S no frag ntype headings ht docId srcFmt rest
        (batch ++ [e]) (parts ++ [ftext])
        (ct + ftok + (if parts.length + 1 > 1 then tok "\n" else 0)) chunks

/-- `_process_list_container`: split the container's children greedily with
overlap; empty containers emit nothing. -/
def process_list_container (tok : String → Nat) (S no : Int) (n : Node)
    (headings : List String) (chunks : List Chunk) (docId srcFmt : String) : List Chunk :=
  let items := n.children
  if items.isEmpty then chunks
  else
    let hp := create_chunk_text headings ""
    splitLoop tok S no (fun c => stringify_node_content c 0) "list_container" headings
      (tok hp) docId srcFmt items [] [] 0 chunks

/-- `_process_table_node`: header-only tables emit one `table_header_only`
chunk; tables with data rows are split greedily by rows with overlap; tables
with neither header nor data rows emit nothing. -/
def process_table_node (tok : String → Nat) (S no : Int) (n : Node)
    (headings : List String) (chunks : List Chunk) (docId srcFmt : String) : List Chunk :=
  let hdr := n.data.header
  let rows := n.data.dataRows
  if rows.isEmpty then
    if hdr.isEmpty then chunks
    else
      let htext := "Table Header: " ++ " | ".intercalate hdr
      let full := create_chunk_text headings htext
      chunks ++ [{ text := full
                   metadata :=
                     { documentId := docId
                       sourceType := srcFmt
                       nodeType := "table_header_only"
                       headings := headings
                       numTokens := tok full
                       hasOverlap := none
                       overlapElements := none } }]
  else
    let hp := create_chunk_text headings ""
    splitLoop tok S no (fun r => format_table_row hdr r) "table_rows" headings
      (tok hp) docId srcFmt rows [] [] 0 chunks

/-- Python list assignment `l[i] = v` (negative indices address from the
end; out-of-range raises `IndexError`). -/
def pySetItem (l : List String) (i : Int) (v : String) : Except String (List String) :=
  let j : Int := if i < 0 then (l.length : Int) + i else i
  if 0 ≤ j ∧ j < (l.length : Int) then .ok (l.set j.toNat v)
  else .error "IndexError: list assignment index out of range"

/-- Python slice `l[:n]` (negative `n` drops that many trailing elements). -/
def pySliceTo (l : List String) (n : Int) : List String :=
  if 0 ≤ n then l.take n.toNat else l.take ((l.length : Int) + n).toNat

/-- The heading-path update of `_consolidate_recursive`: copy, pad with empty
strings up to the heading's level, assign the heading text at index
`level - 1` (Python semantics, so a level ≤ 0 can raise `IndexError`), then
truncate to the level. -/
def update_headings (headings : List String) (lvl : Int) (content : String) :
    Except String (List String) :=
  let padded := headings ++ List.replicate (lvl.toNat - headings.length) ""
  match pySetItem padded (lvl - 1) content with
  | .error e => .error e
  | .ok l2 => .ok (pySliceTo l2 lvl)

/-- `_consolidate_recursive`: depth-first pass emitting chunks.  Headings
update the path and recurse (emitting no chunk of their own); list containers
and tables delegate to their splitters; paragraphs emit one chunk when their
stringification is non-blank; `list_item` at this level and unknown types are
skipped. -/
def consolidate_recursive (tok : String → Nat) (S no : Int) (docId srcFmt : String) :
    List Node → List String → List Chunk → Except String (List Chunk)
  | [], _, chunks => .ok chunks
  | Node.node d cs :: rest, headings, chunks =>
    match d.typ with
    | .heading =>
      match update_headings headings d.level d.content with
      | .error e => .error e
      | .ok nh =>
        match (if cs.isEmpty then Except.ok chunks
               else consolidate_recursive tok S no docId srcFmt cs nh chunks) with
        | .error e => .error e
        | .ok chunks2 => consolidate_recursive tok S no docId srcFmt rest headings chunks2
    | .listContainer =>
      consolidate_recursive tok S no docId srcFmt rest headings
        (process_list_container tok S no (Node.node d cs) headings chunks docId srcFmt)
    | .table =>
      consolidate_recursive tok S no docId srcFmt rest headings
        (process_table_node tok S no (Node.node d cs) headings chunks docId srcFmt)
    | .paragraph =>
      let sc := stringify_node_content (Node.node d cs) 0
      consolidate_recursive tok S no docId srcFmt rest headings
        (if isBlank sc = false then
          chunks ++ [{ text := create_chunk_text headings sc
                       metadata :=
                         { documentId := docId
                           sourceType := srcFmt
                           nodeType := "paragraph"
                           headings := headings
                           numTokens := tok (create_chunk_text headings sc)
                           hasOverlap := none
                           overlapElements := none } }]
        else chunks)
    | _ => consolidate_recursive tok S no docId srcFmt rest headings chunks
termination_by ns _ _ => sizeOf ns
decreasing_by
  all_goals simp_wf
  all_goals omega

/-- `DocumentChunker.apply`: run `_consolidate_recursive` from an empty
heading path and empty chunk list. -/
def DocumentChunker.apply (tok : String → Nat) (c : DocumentChunker) (elements : List Node)
    (documentId srcFmt : String) : Except String (List Chunk) :=
  consolidate_recursive tok c.chunk_size c.num_overlapping_elements documentId srcFmt
    elements [] []

/-! ### Specification-side definitions and invariant predicates -/

/-- Whether element `e` closes the scope of a heading of level `lvl`: it is a
heading of level ≤ `lvl`. -/
def closesHeadingB (lvl : Int) (e : NData) : Bool :=
  e.typ == .heading && decide (e.level ≤ lvl)

/-- Modelled from the spec (§3 Node invariant, §4.1 step 1): a heading node's
children are exactly the elements after it and before the next heading of
level ≤ its own; leading non-heading runs are grouped by the source's list
machinery.  This is the spec-side counterpart compared with
`reconstruct_hierarchy` by the refinement theorem for heading scoping. -/
def specF : List NData → List Node
  | [] => []
  | e :: rest =>
    if h : e.typ = .heading then
      Node.node e (specF (rest.takeWhile (fun x => !closesHeadingB e.level x))) ::
        specF (rest.dropWhile (fun x => !closesHeadingB e.level x))
    else
      reconstruct_hierarchy ((e :: rest).takeWhile (fun x => x.typ != .heading)) ++
        specF ((e :: rest).dropWhile (fun x => x.typ != .heading))
termination_by els => els.length
decreasing_by
  · simp_wf
    have := (List.takeWhile_sublist (l := rest) (fun x => !closesHeadingB e.level x)).length_le
    omega
  · simp_wf
    have := (List.dropWhile_sublist (l := rest) (fun x => !closesHeadingB e.level x)).length_le
    omega
  · simp_wf
    rw [List.dropWhile_cons_of_pos (by simpa using h)]
    have := (List.dropWhile_sublist (l := rest) (fun x => x.typ != .heading)).length_le
    omega

/-- The list-grouping invariant, recursively over a tree: every `list_item`
child of every `list_container` node shares the container's `level` (ilvl)
and `num_id`. -/
inductive NodeOk : Node → Prop where
  | mk (d : NData) (cs : List Node) :
      (d.typ = .listContainer → ∀ c ∈ cs, (Node.data c).typ = .listItem →
        (Node.data c).level = d.level ∧ (Node.data c).numId = d.numId) →
      (∀ c ∈ cs, NodeOk c) → NodeOk (Node.node d cs)

/-- Invariant of one open stack entry: its accumulated children satisfy the
grouping invariant, and when it is a `list_container` its `list_item`
children match its `level`/`num_id`. -/
def frameOk (f : Frame) : Prop :=
  (∀ c ∈ f.children, NodeOk c) ∧
  (f.data.typ = .listContainer → ∀ c ∈ f.children, (Node.data c).typ = .listItem →
    (Node.data c).level = f.data.level ∧ (Node.data c).numId = f.data.numId)

/-- Adjacency invariant of the open stack (top first): a `list_item` entry
sitting directly above a `list_container` entry matches the container's
`level`/`num_id` — the pop conditions of the item step establish this at push
time, and closing the item into the container preserves the grouping
invariant. -/
def adjOk : List Frame → Prop
  | [] => True
  | [_] => True
  | u :: l :: r =>
    (u.data.typ = .listItem → l.data.typ = .listContainer →
      u.data.level = l.data.level ∧ u.data.numId = l.data.numId) ∧ adjOk (l :: r)

/-- Invariant of the whole builder state. -/
def stateOk (s : List Node × List Frame) : Prop :=
  (∀ r ∈ s.1, NodeOk r) ∧ (∀ f ∈ s.2, frameOk f) ∧ adjOk s.2

/-- The first chunk of the given `node_type` in the output (if any) carries
no-overlap metadata. -/
def firstOfTypeOk (ntype : String) (l : List Chunk) : Prop :=
  ∀ c, (l.filter (fun x => x.metadata.nodeType == ntype)).head? = some c →
    c.metadata.hasOverlap = some false ∧ c.metadata.overlapElements = some 0

/-- The token accounting the splitter uses for a batch's fragment texts: the
fragments' token counts plus one newline-separator cost between consecutive
fragments. -/
def contentTokensOf (tok : String → Nat) (parts : List String) : Nat :=
  (parts.map tok).sum + (parts.length - 1) * tok "\n"

/-- Each flushed batch after the first starts with the overlap seed of its
predecessor. -/
def chainedFrom {α : Type} (no : Int) : List α → List (List α) → Prop
  | _, [] => True
  | prev, b :: bs => b.take (seedOf no prev).length = seedOf no prev ∧ chainedFrom no b bs

/-- The non-seeded (fresh) part of each flushed batch after the first. -/
def freshAfter {α : Type} (no : Int) : List α → List (List α) → List (List α)
  | _, [] => []
  | prev, b :: bs => b.drop (seedOf no prev).length :: freshAfter no b bs

/-! ### Concrete fixtures for closed scenarios -/

/-- A fallback-detected list item element (ilvl 0, unknown group). -/
def itemD (s : String) : NData :=
  ⟨.listItem, 0, -1, s, [], []⟩

/-- A leaf list-item node. -/
def itemN (s : String) : Node :=
  Node.node (itemD s) []

/-- A list container node over leaf items with the given texts. -/
def listContainerN (items : List String) : Node :=
  Node.node ⟨.listContainer, 0, -1, "", [], []⟩ (items.map itemN)

/-- A heading element of the given level. -/
def headingD (l : Int) (s : String) : NData :=
  ⟨.heading, l, 0, s, [], []⟩

/-- A paragraph element. -/
def paraD (s : String) : NData :=
  ⟨.paragraph, 0, 0, s, [], []⟩

/-! ## Claim theorems -/

/-- C7 counterexample: constructing `DocumentChunker` with `chunk_size = 0`
and `num_overlapping_elements = -1` raises nothing — the constructor stores
the forbidden values unchanged and a subsequent `apply` runs to a normal
result, contradicting the claim that such configurations raise at
construction time. -/
theorem config_validation_cex :
    ({ chunk_size := 0, num_overlapping_elements := -1 } : DocumentChunker).chunk_size = 0 ∧
    ({ chunk_size := 0, num_overlapping_elements := -1 } : DocumentChunker).num_overlapping_elements = -1 ∧
    DocumentChunker.apply lenTok ⟨0, -1⟩ [Node.node (paraD "x") []] "d" "docx" =
      .ok [⟨"x", ⟨"d", "docx", "paragraph", [], 1, none, none⟩⟩] := by
  refine ⟨rfl, rfl, ?_⟩
  simp +decide [DocumentChunker.apply, consolidate_recursive, stringify_node_content, paraD,
    indentStr, create_chunk_text, lenTok, isBlank]

/-- C7 amended: `DocumentChunker.__init__` performs no validation at all —
every configuration, including negative overlap and non-positive chunk size,
is accepted and stored verbatim, and no error arises at construction or on a
first `apply`. -/
theorem config_no_validation (cs no : Int) :
    ({ chunk_size := cs, num_overlapping_elements := no } : DocumentChunker).chunk_size = cs ∧
    ({ chunk_size := cs, num_overlapping_elements := no } : DocumentChunker).num_overlapping_elements = no ∧
    DocumentChunker.apply lenTok ⟨cs, no⟩ [] "d" "docx" = .ok [] := by
  refine ⟨rfl, rfl, ?_⟩
  simp [DocumentChunker.apply, consolidate_recursive]

/-- C8 counterexample: on the tree built from
`[Heading(1,"Intro"), Paragraph("Hello world")]` the chunker emits exactly
one chunk, not the two chunks (heading chunk plus paragraph chunk) the claim
asserts — heading nodes never emit a chunk of their own. -/
theorem scenario_a_cex :
    (DocumentChunker.apply lenTok ⟨200, 0⟩
        (reconstruct_hierarchy [headingD 1 "Intro", paraD "Hello world"]) "d" "docx").map
      (fun l => l.length) = .ok 1 ∧ (1 : Nat) ≠ 2 := by
  have h1 : DocumentChunker.apply lenTok ⟨200, 0⟩
      (reconstruct_hierarchy [headingD 1 "Intro", paraD "Hello world"]) "d" "docx" =
      .ok [⟨"H1: Intro\n---\nHello world",
            ⟨"d", "docx", "paragraph", ["Intro"], 25, none, none⟩⟩] := by
    simp +decide [reconstruct_hierarchy, runM, step, popWhile, closeAll, headingD, paraD,
      blockPopP, headingPopP, DocumentChunker.apply, consolidate_recursive, update_headings,
      pySetItem, pySliceTo, stringify_node_content, indentStr, create_chunk_text, isBlank,
      lenTok]
  rw [h1]
  exact ⟨rfl, by decide⟩

/-- C8 amended: Scenario A produces exactly one chunk — the paragraph chunk
`"H1: Intro\n---\nHello world"` under the heading path `["Intro"]`; no
separate heading chunk exists. -/
theorem scenario_a_one_chunk :
    DocumentChunker.apply lenTok ⟨200, 0⟩
        (reconstruct_hierarchy [headingD 1 "Intro", paraD "Hello world"]) "d" "docx" =
      .ok [⟨"H1: Intro\n---\nHello world",
            ⟨"d", "docx", "paragraph", ["Intro"], 25, none, none⟩⟩] := by
  simp +decide [reconstruct_hierarchy, runM, step, popWhile, closeAll, headingD, paraD,
    blockPopP, headingPopP, DocumentChunker.apply, consolidate_recursive, update_headings,
    pySetItem, pySliceTo, stringify_node_content, indentStr, create_chunk_text, isBlank, lenTok]

/-- C9 counterexample: a row whose only cell is not a string does NOT raise
when a matching header exists — the header path formats any cell through an
f-string — contradicting "every table row whose cells are not strings
raises". -/
theorem row_error_iff_cex :
    ¬ (∀ (header : List String) (row : List Cell),
        (∃ c ∈ row, c.isStr = false) →
          ∃ e, format_table_row_dyn header row = .error e) := by
  intro h
  obtain ⟨e, he⟩ := h ["a"] [Cell.other "3"] ⟨Cell.other "3", by simp, rfl⟩
  simp [format_table_row_dyn] at he

/-- C9 amended: during row formatting an error is raised iff the fallback
path is taken (missing or column-count-mismatched header) AND some cell is
not a string; in particular rows with non-string cells under a matching
header are formatted without error.  (Row formatting is also not the only
raising operation of the assembler: the heading-path update can raise for a
heading of level ≤ 0, see `update_headings`.) -/
theorem row_error_iff (header : List String) (row : List Cell) :
    (∃ e, format_table_row_dyn header row = .error e) ↔
      ((header = [] ∨ header.length ≠ row.length) ∧ ∃ c ∈ row, c.isStr = false) := by
  by_cases hf : header = [] ∨ header.length ≠ row.length
  · by_cases ha : row.all (fun c => c.isStr) = true
    · simp only [format_table_row_dyn, if_pos hf, if_pos ha]
      simp only [List.all_eq_true] at ha
      constructor
      · rintro ⟨e, he⟩
        exact absurd he (by simp)
      · rintro ⟨-, c, hc, hcs⟩
        exact absurd (ha c hc) (by simp [hcs])
    · simp only [format_table_row_dyn, if_pos hf, if_neg ha]
      simp only [List.all_eq_true, not_forall] at ha
      obtain ⟨c, hc, hcs⟩ := ha
      exact ⟨fun _ => ⟨hf, c, hc, by simpa using hcs⟩,
        fun _ => ⟨"Row data must be a list of strings.", rfl⟩⟩
  · simp only [format_table_row_dyn, if_neg hf]
    constructor
    · rintro ⟨e, he⟩
      exact absurd he (by simp)
    · rintro ⟨hf2, -⟩
      exact absurd hf2 hf

/-- C10 confirmed: with `num_overlapping_elements = 2`, a list container
whose first item is oversized flushes a one-element batch, seeds nothing
(batch smaller than the overlap count), yet the following chunk's metadata
reports `overlap_elements = 1` and `has_overlap = True` while its batch
`["b"]` shares no element with the preceding batch `["aaaaaaaa"]`. -/
theorem overlap_metadata_overstates :
    (DocumentChunker.apply lenTok ⟨5, 2⟩ [listContainerN ["aaaaaaaa", "b"]] "d" "docx").map
        (fun l => l.map (fun c => (c.text, c.metadata.hasOverlap, c.metadata.overlapElements))) =
      .ok [("- aaaaaaaa", some false, some 0), ("- b", some true, some 1)] ∧
    (splitLoopB lenTok 5 2 (fun c => stringify_node_content c 0) "list_container" [] 0 "d" "docx"
        [itemN "aaaaaaaa", itemN "b"] [] [] 0 []).2 = [[itemN "aaaaaaaa"], [itemN "b"]] ∧
    (itemN "aaaaaaaa").data.content ≠ (itemN "b").data.content := by
  refine ⟨?_, ?_, by decide⟩
  · simp +decide [DocumentChunker.apply, consolidate_recursive, process_list_container,
      splitLoop, flushChunk, seedOf, countType, create_chunk_text, stringify_node_content,
      itemN, itemD, listContainerN, indentStr, isBlank, lenTok, Except.map]
  · simp +decide [splitLoopB, flushChunk, seedOf, countType, create_chunk_text,
      stringify_node_content, itemN, itemD, indentStr, isBlank, lenTok]

/-- C2 counterexample: with two sibling list containers, the SECOND
container's first (and only) chunk carries `has_overlap = True` and
`overlap_elements = 1`, because first-chunk detection counts previously
emitted chunks of the same `node_type` across the whole output, not per
container — contradicting the per-container scoping the claim asserts. -/
theorem first_chunk_scope_cex :
    (DocumentChunker.apply lenTok ⟨100, 1⟩ [listContainerN ["a"], listContainerN ["b"]]
        "d" "docx").map
        (fun l => l.map (fun c => (c.metadata.hasOverlap, c.metadata.overlapElements))) =
      .ok [(some false, some 0), (some true, some 1)] := by
  simp +decide [DocumentChunker.apply, consolidate_recursive, process_list_container,
    splitLoop, flushChunk, seedOf, countType, create_chunk_text, stringify_node_content,
    itemN, itemD, listContainerN, indentStr, isBlank, lenTok, Except.map]

/-- C3 counterexample: a 5-item list container with a budget admitting
exactly two items per chunk and overlap 1 yields FOUR chunks
(`[a,b],[b,c],[c,d],[d,e]`), not the three the claim asserts. -/
theorem scenario_b_cex :
    (DocumentChunker.apply lenTok ⟨7, 1⟩ [listContainerN ["a", "b", "c", "d", "e"]]
        "d" "docx").map (fun l => l.length) = .ok 4 ∧ (4 : Nat) ≠ 3 := by
  constructor
  · simp +decide [DocumentChunker.apply, consolidate_recursive, process_list_container,
      splitLoop, flushChunk, seedOf, countType, create_chunk_text, stringify_node_content,
      itemN, itemD, listContainerN, indentStr, isBlank, lenTok, Except.map]
  · decide

/-- C1 counterexample: a childless heading produces NO chunk at all, so its
text `"A"` appears nowhere in the output — heading text is dropped from the
chunk contents (it can only ever appear inside heading prefixes, which the
claim's concatenation excludes), contradicting "no heading's text is
dropped". -/
theorem heading_text_dropped_cex :
    DocumentChunker.apply lenTok ⟨200, 0⟩ [Node.node (headingD 1 "A") []] "d" "docx" = .ok [] ∧
    (headingD 1 "A").content = "A" ∧ ("A" : String) ≠ "" := by
  refine ⟨?_, rfl, by decide⟩
  simp [DocumentChunker.apply, consolidate_recursive, update_headings, pySetItem, pySliceTo,
    headingD]

/-- C4 counterexample: with overlap 1 and an oversized first item, the second
flushed batch is `[aaaaaaaa, b]` (two elements), and removing its last
element still leaves `headingTokens + contentTokens = 10 > 5 = chunkSizeTokens`
— the soft-budget property fails for batches seeded with an oversized
overlap element, exactly the case the claim requires to hold. -/
theorem token_budget_overlap_cex :
    (splitLoopB lenTok 5 1 (fun c => stringify_node_content c 0) "list_container" [] 0 "d" "docx"
        [itemN "aaaaaaaa", itemN "b", itemN "c"] [] [] 0 []).2.map
        (fun b => b.map (fun n => stringify_node_content n 0)) =
      [["- aaaaaaaa"], ["- aaaaaaaa", "- b"], ["- b", "- c"]] ∧
    ¬ (((0 + contentTokensOf lenTok ["- aaaaaaaa"] : Nat) : Int) ≤ 5) ∧
    (splitLoop lenTok 5 1 (fun c => stringify_node_content c 0) "list_container" [] 0 "d" "docx"
        [itemN "aaaaaaaa", itemN "b", itemN "c"] [] [] 0 []).length = 3 := by
  refine ⟨?_, by decide, ?_⟩
  · simp +decide [splitLoopB, flushChunk, seedOf, countType, create_chunk_text,
      stringify_node_content, itemN, itemD, indentStr, isBlank, lenTok]
  · simp +decide [splitLoop, flushChunk, seedOf, countType, create_chunk_text,
      stringify_node_content, itemN, itemD, indentStr, isBlank, lenTok]

/-- The overlap seed is empty when the configured overlap count is zero. -/
theorem seedOf_zero {α : Type} (b : List α) : seedOf (0 : Int) b = [] := by
  simp [seedOf]

/-- `contentTokensOf` over an appended fragment. -/
theorem contentTokensOf_append_le (tok : String → Nat) (parts : List String) (f : String)
    (ct : Nat) (h : contentTokensOf tok parts ≤ ct) :
    contentTokensOf tok (parts ++ [f]) ≤
      ct + tok f + (if parts.length + 1 > 1 then tok "\n" else 0) := by
  rcases parts with - | ⟨p, ps⟩
  · simp [contentTokensOf]
  · rw [if_pos (by simp : (p :: ps).length + 1 > 1)]
    have h1 : contentTokensOf tok ((p :: ps) ++ [f]) =
        contentTokensOf tok (p :: ps) + tok f + tok "\n" := by
      simp only [contentTokensOf, List.map_append, List.sum_append, List.length_append,
        List.map_cons, List.sum_cons, List.length_cons, List.map_nil, List.sum_nil,
        List.length_nil, Nat.add_sub_cancel]
      rw [Nat.succ_mul]
      ring
    rw [h1]
    omega

/-- Invariant induction for the soft token budget with zero overlap: every
batch flushed by the splitter that holds at least two elements satisfies the
budget after removing its last element. -/
theorem splitB_budget_aux {α : Type} (tok : String → Nat) (S : Int) (frag : α → String)
    (ntype : String) (headings : List String) (ht : Nat) (docId srcFmt : String) :
    ∀ (els : List α) (batch : List α) (parts : List String) (ct : Nat) (chunks : List Chunk),
      parts = batch.map frag →
      contentTokensOf tok parts ≤ ct →
      (2 ≤ batch.length →
        ((ht + contentTokensOf tok (batch.dropLast.map frag) : Nat) : Int) ≤ S) →
      ∀ b ∈ (splitLoopB tok S 0 frag ntype headings ht docId srcFmt els batch parts ct chunks).2,
        2 ≤ b.length → ((ht + contentTokensOf tok (b.dropLast.map frag) : Nat) : Int) ≤ S := by
  intro els
  induction els with
  | nil =>
    intro batch parts ct chunks h1 h2 h3 b hb hlen
    simp only [splitLoopB] at hb
    split at hb
    · simp at hb
    · simp only [List.mem_singleton] at hb
      subst hb
      exact h3 hlen
  | cons e rest ih =>
    intro batch parts ct chunks h1 h2 h3 b hb hlen
    simp only [splitLoopB] at hb
    split at hb
    · next hcond =>
      simp only [List.mem_cons] at hb
      rcases hb with hb | hb
      · subst hb
        exact h3 hlen
      · refine ih _ _ _ _ ?_ ?_ ?_ b hb hlen
        · simp [seedOf_zero]
        · simp [seedOf_zero, contentTokensOf]
        · simp [seedOf_zero]
    · next hcond =>
      refine ih _ _ _ _ ?_ ?_ ?_ b hb hlen
      · simp [h1]
      · exact contentTokensOf_append_le tok parts (frag e) ct h2
      · intro hlen2
        rw [List.dropLast_concat, ← h1]
        rcases (not_and_or.mp hcond) with hempty | hle
        · simp only [not_not, List.isEmpty_iff] at hempty
          subst hempty
          simp at hlen2
        · push_neg at hle
          have hct : contentTokensOf tok parts ≤ ct := h2
          omega

/-- C4 amended: with `num_overlapping_elements = 0` the soft token budget
holds — for every batch the splitter flushes (list items or table rows alike,
both instantiate `splitLoopB`) that contains at least two elements, removing
the last element brings `headingTokens + contentTokens` to at most
`chunk_size`; the counterexample `token_budget_overlap_cex` shows the
property fails for overlap-seeded batches, which the original claim included. -/
theorem token_budget_no_overlap {α : Type} (tok : String → Nat) (S : Int) (frag : α → String)
    (ntype : String) (headings : List String) (ht : Nat) (docId srcFmt : String)
    (els : List α) (chunks : List Chunk) :
    ∀ b ∈ (splitLoopB tok S 0 frag ntype headings ht docId srcFmt els [] [] 0 chunks).2,
      2 ≤ b.length → ((ht + contentTokensOf tok (b.dropLast.map frag) : Nat) : Int) ≤ S := by
  exact splitB_budget_aux tok S frag ntype headings ht docId srcFmt els [] [] 0 chunks
    rfl (by simp [contentTokensOf]) (by simp)

/-- Witness for `token_budget_no_overlap`: the first batch flushed for a
3-item container at budget 7 is `[a, b]`; dropping its last element leaves
3 ≤ 7 tokens. -/
theorem token_budget_no_overlap_witness :
    [itemN "a", itemN "b"] ∈
      (splitLoopB lenTok 7 0 (fun c => stringify_node_content c 0) "list_container" [] 0
        "d" "docx" [itemN "a", itemN "b", itemN "c"] [] [] 0 []).2 ∧
    2 ≤ ([itemN "a", itemN "b"] : List Node).length ∧
    ((0 + contentTokensOf lenTok (([itemN "a", itemN "b"] : List Node).dropLast.map
        (fun c => stringify_node_content c 0)) : Nat) : Int) ≤ 7 := by
  have hmem : [itemN "a", itemN "b"] ∈
      (splitLoopB lenTok 7 0 (fun c => stringify_node_content c 0) "list_container" [] 0
        "d" "docx" [itemN "a", itemN "b", itemN "c"] [] [] 0 []).2 := by
    have hev : (splitLoopB lenTok 7 0 (fun c => stringify_node_content c 0) "list_container"
        [] 0 "d" "docx" [itemN "a", itemN "b", itemN "c"] [] [] 0 []).2 =
        [[itemN "a", itemN "b"], [itemN "c"]] := by
      simp +decide [splitLoopB, flushChunk, seedOf, countType, create_chunk_text,
        stringify_node_content, itemN, itemD, indentStr, isBlank, lenTok]
    rw [hev]
    exact List.mem_cons_self _ _
  exact ⟨hmem, by decide,
    token_budget_no_overlap lenTok 7 (fun c => stringify_node_content c 0) "list_container"
      [] 0 "d" "docx" [itemN "a", itemN "b", itemN "c"] [] _ hmem (by decide)⟩

/-- Appending a chunk of a different `node_type` preserves the
first-of-type property. -/
theorem firstOfTypeOk_append_other (nt : String) (chunks : List Chunk) (c : Chunk)
    (hne : c.metadata.nodeType ≠ nt) (h : firstOfTypeOk nt chunks) :
    firstOfTypeOk nt (chunks ++ [c]) := by
  intro x hx
  apply h
  have hb : (c.metadata.nodeType == nt) = false := by simpa using hne
  rwa [List.filter_append, List.filter_singleton, hb, cond_false, List.append_nil] at hx

/-- Appending a flushed chunk preserves the first-of-type property: when it
is the first chunk of its `node_type`, the flush itself stamps it with
`has_overlap = False` and `overlap_elements = 0`. -/
theorem firstOfTypeOk_append_flushChunk (nt : String) (tok : String → Nat) (no : Int)
    (ntype : String) (headings : List String) (docId srcFmt : String) (parts : List String)
    (blen : Nat) (chunks : List Chunk) (h : firstOfTypeOk nt chunks) :
    firstOfTypeOk nt (chunks ++ [flushChunk tok no ntype headings docId srcFmt parts blen chunks]) := by
  by_cases hnt : ntype = nt
  · subst hnt
    by_cases h0 : countType chunks ntype = 0
    · have hfil : chunks.filter (fun x => x.metadata.nodeType == ntype) = [] :=
        List.length_eq_zero.mp h0
      intro x hx
      have hb : ((flushChunk tok no ntype headings docId srcFmt parts blen chunks).metadata.nodeType
          == ntype) = true := by simp [flushChunk]
      rw [List.filter_append, hfil, List.nil_append, List.filter_singleton, hb, cond_true,
        List.head?_cons] at hx
      have hxx : flushChunk tok no ntype headings docId srcFmt parts blen chunks = x :=
        Option.some.inj hx
      subst hxx
      simp [flushChunk, h0]
    · have hfil : chunks.filter (fun x => x.metadata.nodeType == ntype) ≠ [] := by
        intro hc
        exact h0 (by simp [countType, hc])
      intro x hx
      apply h
      rcases List.exists_cons_of_ne_nil hfil with ⟨y, ys, hys⟩
      rw [List.filter_append, hys, List.cons_append, List.head?_cons] at hx
      rw [hys, List.head?_cons]
      exact hx
  · exact firstOfTypeOk_append_other nt chunks _ (by simpa [flushChunk] using hnt) h

/-- The splitting loop preserves the first-of-type property. -/
theorem splitLoop_firstOk {α : Type} (nt : String) (tok : String → Nat) (S no : Int)
    (frag : α → String) (ntype : String) (headings : List String) (ht : Nat)
    (docId srcFmt : String) :
    ∀ (els : List α) (batch : List α) (parts : List String) (ct : Nat) (chunks : List Chunk),
      firstOfTypeOk nt chunks →
      firstOfTypeOk nt (splitLoop tok S no frag ntype headings ht docId srcFmt els batch parts ct chunks) := by
  intro els
  induction els with
  | nil =>
    intro batch parts ct chunks h
    simp only [splitLoop]
    split
    · exact h
    · exact firstOfTypeOk_append_flushChunk nt tok no ntype headings docId srcFmt _ _ _ h
  | cons e rest ih =>
    intro batch parts ct chunks h
    simp only [splitLoop]
    split
    · exact ih _ _ _ _ (firstOfTypeOk_append_flushChunk nt tok no ntype headings docId srcFmt _ _ _ h)
    · exact ih _ _ _ _ h

/-- `_process_list_container` preserves the first-of-type property. -/
theorem process_list_container_firstOk (nt : String) (tok : String → Nat) (S no : Int)
    (n : Node) (headings : List String) (chunks : List Chunk) (docId srcFmt : String)
    (h : firstOfTypeOk nt chunks) :
    firstOfTypeOk nt (process_list_container tok S no n headings chunks docId srcFmt) := by
  simp only [process_list_container]
  split
  · exact h
  · exact splitLoop_firstOk nt tok S no _ _ headings _ docId srcFmt _ _ _ _ _ h

/-- `_process_table_node` preserves the first-of-type property for any type
other than `table_header_only`. -/
theorem process_table_node_firstOk (nt : String) (hh : nt ≠ "table_header_only")
    (tok : String → Nat) (S no : Int) (n : Node) (headings : List String)
    (chunks : List Chunk) (docId srcFmt : String) (h : firstOfTypeOk nt chunks) :
    firstOfTypeOk nt (process_table_node tok S no n headings chunks docId srcFmt) := by
  simp only [process_table_node]
  split
  · split
    · exact h
    · exact firstOfTypeOk_append_other nt chunks _ (by simpa using Ne.symm hh) h
  · exact splitLoop_firstOk nt tok S no _ _ headings _ docId srcFmt _ _ _ _ _ h

/-- `_consolidate_recursive` preserves the first-of-type property for any
type other than `paragraph` and `table_header_only`. -/
theorem consolidate_firstOk (tok : String → Nat) (S no : Int) (docId srcFmt : String)
    (nt : String) (hp : nt ≠ "paragraph") (hh : nt ≠ "table_header_only") :
    ∀ (nodes : List Node) (headings : List String) (chunks : List Chunk) (out : List Chunk),
      consolidate_recursive tok S no docId srcFmt nodes headings chunks = .ok out →
      firstOfTypeOk nt chunks → firstOfTypeOk nt out := by
  intro nodes headings chunks
  induction nodes, headings, chunks using consolidate_recursive.induct tok S no docId srcFmt with
  | case1 headings chunks =>
    intro out hout h
    simp only [consolidate_recursive, Except.ok.injEq] at hout
    subst hout
    exact h
  | case2 d cs rest headings chunks htyp e herr =>
    intro out hout h
    simp only [consolidate_recursive, htyp, herr] at hout
    exact Except.noConfusion hout
  | case3 d cs rest headings chunks htyp l2 hupd e herr ih =>
    intro out hout h
    by_cases hcs : cs.isEmpty
    · rw [dif_pos hcs] at herr
      exact Except.noConfusion herr
    · rw [dif_neg hcs] at herr
      simp only [consolidate_recursive, htyp, hupd, if_neg hcs, herr] at hout
      exact Except.noConfusion hout
  | case4 d cs rest headings chunks htyp l2 hupd chunks2 hinner ih2 ih1 =>
    intro out hout h
    by_cases hcs : cs.isEmpty
    · rw [dif_pos hcs] at hinner
      have h2 : chunks2 = chunks := (Except.ok.inj hinner).symm
      subst h2
      simp only [consolidate_recursive, htyp, hupd, if_pos hcs] at hout
      exact ih1 out hout h
    · rw [dif_neg hcs] at hinner
      simp only [consolidate_recursive, htyp, hupd, if_neg hcs, hinner] at hout
      exact ih1 out hout (ih2 chunks2 hinner h)
  | case5 d cs rest headings chunks htyp ih =>
    intro out hout h
    simp only [consolidate_recursive, htyp] at hout
    exact ih out hout
      (process_list_container_firstOk nt tok S no _ headings chunks docId srcFmt h)
  | case6 d cs rest headings chunks htyp ih =>
    intro out hout h
    simp only [consolidate_recursive, htyp] at hout
    exact ih out hout
      (process_table_node_firstOk nt hh tok S no _ headings chunks docId srcFmt h)
  | case7 d cs rest headings chunks htyp sc ih =>
    intro out hout h
    simp only [consolidate_recursive, htyp] at hout
    refine ih out hout ?_
    split
    · exact firstOfTypeOk_append_other nt chunks _ (by simpa using Ne.symm hp) h
    · exact h
  | case8 d cs rest headings chunks h1 h2 h3 h4 ih =>
    intro out hout h
    simp only [consolidate_recursive] at hout
    refine ih out ?_ h
    rcases d with ⟨t, lvl, nid, ct2, hd2, dr2⟩
    cases t <;> simp_all

/-- C2 amended: first-chunk-no-overlap holds globally per `node_type`, not
per container — the first `list_container` chunk and the first `table_rows`
chunk of the WHOLE output carry `has_overlap = False` and
`overlap_elements = 0`; a later container's first chunk need not (see
`first_chunk_scope_cex`). -/
theorem first_chunk_global_no_overlap (tok : String → Nat) (c : DocumentChunker)
    (nodes : List Node) (docId srcFmt : String) (out : List Chunk)
    (h : DocumentChunker.apply tok c nodes docId srcFmt = .ok out) :
    firstOfTypeOk "list_container" out ∧ firstOfTypeOk "table_rows" out := by
  constructor
  · exact consolidate_firstOk tok c.chunk_size c.num_overlapping_elements docId srcFmt
      "list_container" (by decide) (by decide) nodes [] [] out h (by intro x hx; simp at hx)
  · exact consolidate_firstOk tok c.chunk_size c.num_overlapping_elements docId srcFmt
      "table_rows" (by decide) (by decide) nodes [] [] out h (by intro x hx; simp at hx)

/-- Witness for `first_chunk_global_no_overlap`: a one-container document;
its first (globally first) list chunk indeed reports no overlap. -/
theorem first_chunk_global_no_overlap_witness :
    DocumentChunker.apply lenTok ⟨100, 1⟩ [listContainerN ["a"]] "d" "docx" =
      .ok [⟨"- a", ⟨"d", "docx", "list_container", [], 3, some false, some 0⟩⟩] ∧
    firstOfTypeOk "list_container"
      [⟨"- a", ⟨"d", "docx", "list_container", [], 3, some false, some 0⟩⟩] ∧
    firstOfTypeOk "table_rows"
      [⟨"- a", ⟨"d", "docx", "list_container", [], 3, some false, some 0⟩⟩] := by
  have h : DocumentChunker.apply lenTok ⟨100, 1⟩ [listContainerN ["a"]] "d" "docx" =
      .ok [⟨"- a", ⟨"d", "docx", "list_container", [], 3, some false, some 0⟩⟩] := by
    simp +decide [DocumentChunker.apply, consolidate_recursive, process_list_container,
      splitLoop, flushChunk, seedOf, countType, create_chunk_text, stringify_node_content,
      itemN, itemD, listContainerN, indentStr, isBlank, lenTok]
  exact ⟨h, (first_chunk_global_no_overlap lenTok ⟨100, 1⟩ [listContainerN ["a"]] "d" "docx" _ h).1,
    (first_chunk_global_no_overlap lenTok ⟨100, 1⟩ [listContainerN ["a"]] "d" "docx" _ h).2⟩

/-- `String.intercalate` on a singleton. -/
theorem intercalate_single (sep a : String) : sep.intercalate [a] = a := rfl

/-- `String.intercalate` on a pair. -/
theorem intercalate_pair (sep a b : String) : sep.intercalate [a, b] = a ++ sep ++ b := rfl

/-- `create_chunk_text` with no active headings is the raw content. -/
theorem create_chunk_text_nil (content : String) : create_chunk_text [] content = content := rfl

theorem scenario_b_four_chunks (tok : String → Nat) (S : Int)
    (i1 i2 i3 i4 i5 : Node) (s1 s2 s3 s4 s5 : String) (t : Nat) (d f : String)
    (h1 : stringify_node_content i1 0 = s1) (h2 : stringify_node_content i2 0 = s2)
    (h3 : stringify_node_content i3 0 = s3) (h4 : stringify_node_content i4 0 = s4)
    (h5 : stringify_node_content i5 0 = s5)
    (ht1 : tok s1 = t) (ht2 : tok s2 = t) (ht3 : tok s3 = t) (ht4 : tok s4 = t)
    (ht5 : tok s5 = t)
    (hfit : ((tok "" + t + t + tok "\n" : Nat) : Int) ≤ S)
    (hover : ((tok "" + (t + t + tok "\n") + t + tok "\n" : Nat) : Int) > S) :
    DocumentChunker.apply tok ⟨S, 1⟩
        [Node.node ⟨.listContainer, 0, -1, "", [], []⟩ [i1, i2, i3, i4, i5]] d f =
      .ok [⟨s1 ++ "\n" ++ s2, ⟨d, f, "list_container", [], tok (s1 ++ "\n" ++ s2), some false, some 0⟩⟩,
           ⟨s2 ++ "\n" ++ s3, ⟨d, f, "list_container", [], tok (s2 ++ "\n" ++ s3), some true, some 1⟩⟩,
           ⟨s3 ++ "\n" ++ s4, ⟨d, f, "list_container", [], tok (s3 ++ "\n" ++ s4), some true, some 1⟩⟩,
           ⟨s4 ++ "\n" ++ s5, ⟨d, f, "list_container", [], tok (s4 ++ "\n" ++ s5), some true, some 1⟩⟩] := by
  simp only [DocumentChunker.apply, consolidate_recursive, process_list_container,
    List.isEmpty_cons, Node.children, create_chunk_text_nil, h1, h2, h3, h4, h5]
  -- item 1: empty batch, no flush
  rw [splitLoop]
  simp only [List.isEmpty_nil, not_true, false_and, if_false, h1, ht1, List.nil_append,
    List.length_nil, Nat.zero_add]
  -- item 2: fits (2 items per chunk)
  rw [splitLoop]
  simp +decide [h2, ht2, seedOf, intercalate_single, intercalate_pair, flushChunk, countType,
    create_chunk_text_nil]
  rw [if_neg (by omega)]
  -- item 3: overflow, flush [i1, i2], seed [i2]
  rw [splitLoop]
  simp +decide [h2, ht2, h3, ht3, seedOf, intercalate_single, intercalate_pair, flushChunk,
    countType, create_chunk_text_nil]
  rw [if_pos (by omega)]
  -- item 4: overflow, flush [i2, i3], seed [i3]
  rw [splitLoop]
  simp +decide [h3, ht3, h4, ht4, seedOf, intercalate_single, intercalate_pair, flushChunk,
    countType, create_chunk_text_nil]
  rw [if_pos (by omega)]
  -- item 5: overflow, flush [i3, i4], seed [i4]
  rw [splitLoop]
  simp +decide [h4, ht4, h5, ht5, seedOf, intercalate_single, intercalate_pair, flushChunk,
    countType, create_chunk_text_nil]
  rw [if_pos (by omega)]
  -- end of input: final flush [i4, i5]
  rw [splitLoop]
  simp +decide [h5, ht5, intercalate_pair, flushChunk, countType, create_chunk_text_nil]

/-- Witness for `scenario_b_four_chunks`: five one-character items under
`lenTok` with budget 7 (two 3-token items plus separator fit; a third does
not) produce the four chunks. -/
theorem scenario_b_four_chunks_witness :
    stringify_node_content (itemN "a") 0 = "- a" ∧
    lenTok "- a" = 3 ∧
    ((lenTok "" + 3 + 3 + lenTok "\n" : Nat) : Int) ≤ 7 ∧
    ((lenTok "" + (3 + 3 + lenTok "\n") + 3 + lenTok "\n" : Nat) : Int) > 7 ∧
    DocumentChunker.apply lenTok ⟨7, 1⟩
        [Node.node ⟨.listContainer, 0, -1, "", [], []⟩
          [itemN "a", itemN "b", itemN "c", itemN "d", itemN "e"]] "d" "docx" =
      .ok [⟨"- a" ++ "\n" ++ "- b",
            ⟨"d", "docx", "list_container", [], lenTok ("- a" ++ "\n" ++ "- b"), some false, some 0⟩⟩,
           ⟨"- b" ++ "\n" ++ "- c",
            ⟨"d", "docx", "list_container", [], lenTok ("- b" ++ "\n" ++ "- c"), some true, some 1⟩⟩,
           ⟨"- c" ++ "\n" ++ "- d",
            ⟨"d", "docx", "list_container", [], lenTok ("- c" ++ "\n" ++ "- d"), some true, some 1⟩⟩,
           ⟨"- d" ++ "\n" ++ "- e",
            ⟨"d", "docx", "list_container", [], lenTok ("- d" ++ "\n" ++ "- e"), some true, some 1⟩⟩] := by
  have hsa : stringify_node_content (itemN "a") 0 = "- a" := by
    simp +decide [stringify_node_content, itemN, itemD, indentStr]
  have hsb : stringify_node_content (itemN "b") 0 = "- b" := by
    simp +decide [stringify_node_content, itemN, itemD, indentStr]
  have hsc : stringify_node_content (itemN "c") 0 = "- c" := by
    simp +decide [stringify_node_content, itemN, itemD, indentStr]
  have hsd : stringify_node_content (itemN "d") 0 = "- d" := by
    simp +decide [stringify_node_content, itemN, itemD, indentStr]
  have hse : stringify_node_content (itemN "e") 0 = "- e" := by
    simp +decide [stringify_node_content, itemN, itemD, indentStr]
  refine ⟨hsa, by decide, by decide, by decide, ?_⟩
  exact scenario_b_four_chunks lenTok 7 (itemN "a") (itemN "b") (itemN "c") (itemN "d")
    (itemN "e") "- a" "- b" "- c" "- d" "- e" 3 "d" "docx"
    hsa hsb hsc hsd hse
    (by decide) (by decide) (by decide) (by decide) (by decide)
    (by decide) (by decide)

/-- The instrumented splitter agrees with the source splitter on the emitted
chunks. -/
theorem splitLoopB_fst {α : Type} (tok : String → Nat) (S no : Int) (frag : α → String)
    (ntype : String) (headings : List String) (ht : Nat) (docId srcFmt : String) :
    ∀ (els : List α) (batch : List α) (parts : List String) (ct : Nat) (chunks : List Chunk),
      (splitLoopB tok S no frag ntype headings ht docId srcFmt els batch parts ct chunks).1 =
        splitLoop tok S no frag ntype headings ht docId srcFmt els batch parts ct chunks := by
  intro els
  induction els with
  | nil =>
    intro batch parts ct chunks
    simp only [splitLoop, splitLoopB]
    split <;> rfl
  | cons e rest ih =>
    intro batch parts ct chunks
    simp only [splitLoop, splitLoopB]
    split
    · exact ih _ _ _ _
    · exact ih _ _ _ _

/-- Core coverage induction: starting from a non-empty batch whose fragment
texts are recorded in `parts`, the flushed batches of the splitter extend the
current batch, are chained by overlap seeds, and their fresh parts exhaust
the remaining elements in order; each chunk's text is the heading prefix over
the newline-join of its batch's fragments. -/
theorem splitB_coverage_aux {α : Type} (tok : String → Nat) (S no : Int) (frag : α → String)
    (ntype : String) (headings : List String) (ht : Nat) (docId srcFmt : String) :
    ∀ (els : List α) (batch : List α) (parts : List String) (ct : Nat) (chunks : List Chunk),
      batch ≠ [] → parts = batch.map frag →
      ∃ ext bs,
        (splitLoopB tok S no frag ntype headings ht docId srcFmt els batch parts ct chunks).2 =
          (batch ++ ext) :: bs ∧
        ext ++ (freshAfter no (batch ++ ext) bs).flatten = els ∧
        chainedFrom no (batch ++ ext) bs ∧
        (splitLoopB tok S no frag ntype headings ht docId srcFmt els batch parts ct chunks).1.map
            (fun c => c.text) =
          chunks.map (fun c => c.text) ++
            ((batch ++ ext) :: bs).map
              (fun b => create_chunk_text headings ("\n".intercalate (b.map frag))) := by
  intro els
  induction els with
  | nil =>
    intro batch parts ct chunks hb hparts
    refine ⟨[], [], ?_, ?_, ?_, ?_⟩
    · simp [splitLoopB, List.isEmpty_iff, hb]
    · simp [freshAfter]
    · simp [chainedFrom]
    · simp [splitLoopB, List.isEmpty_iff, hb, flushChunk, hparts]
  | cons e rest ih =>
    intro batch parts ct chunks hb hparts
    by_cases hcond : ¬ batch.isEmpty = true ∧
        ((ht + ct + tok (frag e) + tok "\n" : Nat) : Int) > S
    · -- flush branch
      obtain ⟨ext1, bs1, hbs, hjoin, hch, htext⟩ :=
        ih (seedOf no batch ++ [e])
          (List.map frag (seedOf no batch) ++ [frag e])
          (tok ("\n".intercalate (List.map frag (seedOf no batch))) + tok (frag e) +
            (if (List.map frag (seedOf no batch)).length + 1 > 1 then tok "\n" else 0))
          (chunks ++ [flushChunk tok no ntype headings docId srcFmt parts batch.length chunks])
          (by simp) (by simp)
      refine ⟨[], (seedOf no batch ++ [e] ++ ext1) :: bs1, ?_, ?_, ?_, ?_⟩
      · simp only [splitLoopB, if_pos hcond]
        rw [List.append_nil, hbs]
      · simp only [List.nil_append, List.append_nil, freshAfter]
        rw [List.append_assoc (seedOf no batch) [e] ext1, List.drop_left]
        simp only [List.append_assoc, List.cons_append, List.nil_append] at hjoin
        simp only [List.flatten_cons, List.cons_append, List.nil_append]
        rw [hjoin]
      · simp only [List.append_nil, chainedFrom]
        constructor
        · rw [List.append_assoc, List.take_left]
        · exact hch
      · simp only [splitLoopB, if_pos hcond]
        rw [List.append_nil, htext]
        simp only [List.map_append, List.map_cons, List.map_nil, flushChunk]
        rw [hparts]
        simp
    · -- append branch
      obtain ⟨ext1, bs1, hbs, hjoin, hch, htext⟩ :=
        ih (batch ++ [e]) (parts ++ [frag e])
          (ct + tok (frag e) + (if parts.length + 1 > 1 then tok "\n" else 0))
          chunks (by simp) (by simp [hparts])
      refine ⟨e :: ext1, bs1, ?_, ?_, ?_, ?_⟩
      · simp only [splitLoopB, if_neg hcond]
        rw [show batch ++ e :: ext1 = (batch ++ [e]) ++ ext1 by simp]
        exact hbs
      · rw [show batch ++ e :: ext1 = (batch ++ [e]) ++ ext1 by simp]
        simp only [List.cons_append]
        rw [hjoin]
      · rw [show batch ++ e :: ext1 = (batch ++ [e]) ++ ext1 by simp]
        exact hch
      · simp only [splitLoopB, if_neg hcond]
        rw [show batch ++ e :: ext1 = (batch ++ [e]) ++ ext1 by simp]
        exact htext

/-- C1 amended: container-level chunk coverage.  For every element list fed
to the shared splitting loop (list-container children or table rows), the
flushed batches (i) are chained — every batch after the first begins with the
overlap seed of its predecessor, (ii) exhaust exactly the input elements in
order once each batch's seed is stripped, and (iii) produce chunks whose text
is the heading prefix over the newline-join of the batch's fragments; the
emitted chunk list agrees with the source splitter.  (Whole-tree coverage as
originally claimed fails: heading text appears only inside heading prefixes —
a childless heading's text is dropped entirely, `heading_text_dropped_cex` —
and parser-shaped `content`-only table nodes produce no chunk at all.) -/
theorem split_coverage {α : Type} (tok : String → Nat) (S no : Int) (frag : α → String)
    (ntype : String) (headings : List String) (ht : Nat) (docId srcFmt : String)
    (els : List α) (chunks : List Chunk) :
    (splitLoopB tok S no frag ntype headings ht docId srcFmt els [] [] 0 chunks).1 =
      splitLoop tok S no frag ntype headings ht docId srcFmt els [] [] 0 chunks ∧
    (splitLoopB tok S no frag ntype headings ht docId srcFmt els [] [] 0 chunks).1.map
        (fun c => c.text) =
      chunks.map (fun c => c.text) ++
        (splitLoopB tok S no frag ntype headings ht docId srcFmt els [] [] 0 chunks).2.map
          (fun b => create_chunk_text headings ("\n".intercalate (b.map frag))) ∧
    ((splitLoopB tok S no frag ntype headings ht docId srcFmt els [] [] 0 chunks).2 = [] →
      els = []) ∧
    ∀ b bs,
      (splitLoopB tok S no frag ntype headings ht docId srcFmt els [] [] 0 chunks).2 = b :: bs →
      b ++ (freshAfter no b bs).flatten = els ∧ chainedFrom no b bs := by
  refine ⟨splitLoopB_fst tok S no frag ntype headings ht docId srcFmt els [] [] 0 chunks, ?_⟩
  rcases els with - | ⟨e, rest⟩
  · refine ⟨by simp [splitLoopB], by simp [splitLoopB], ?_⟩
    intro b bs hbs
    rw [show (splitLoopB tok S no frag ntype headings ht docId srcFmt [] [] [] 0 chunks).2 = []
      from by simp [splitLoopB]] at hbs
    exact List.noConfusion hbs
  · obtain ⟨ext, bs1, hbs, hjoin, hch, htext⟩ :=
      splitB_coverage_aux tok S no frag ntype headings ht docId srcFmt rest [e] [frag e]
        (0 + tok (frag e) + (if ([] : List String).length + 1 > 1 then tok "\n" else 0))
        chunks (by simp) (by simp)
    have hstep : splitLoopB tok S no frag ntype headings ht docId srcFmt (e :: rest) [] [] 0 chunks =
        splitLoopB tok S no frag ntype headings ht docId srcFmt rest [e] [frag e]
          (0 + tok (frag e) + (if ([] : List String).length + 1 > 1 then tok "\n" else 0)) chunks := by
      simp [splitLoopB]
    rw [hstep, hbs]
    refine ⟨?_, ?_, ?_⟩
    · rw [htext]
    · intro hc
      exact List.noConfusion hc
    · intro b bs2 heq
      obtain ⟨hb, hbs2⟩ := List.cons.inj heq
      subst hb
      subst hbs2
      constructor
      · rw [List.cons_append] at hjoin ⊢
        rw [← hjoin]
        simp
      · exact hch

/-- Witness for `split_coverage`: three one-character items at budget 7 with
overlap 1 flush as `[a,b]` then `[b,c]`; the second batch starts with the
seed `[b]` and stripping seeds reproduces exactly `[a,b,c]`. -/
theorem split_coverage_witness :
    (splitLoopB lenTok 7 1 (fun c => stringify_node_content c 0) "list_container" [] 0
        "d" "docx" [itemN "a", itemN "b", itemN "c"] [] [] 0 []).2 =
      [[itemN "a", itemN "b"], [itemN "b", itemN "c"]] ∧
    [itemN "a", itemN "b"] ++
        (freshAfter 1 [itemN "a", itemN "b"] [[itemN "b", itemN "c"]]).flatten =
      [itemN "a", itemN "b", itemN "c"] ∧
    chainedFrom 1 [itemN "a", itemN "b"] [[itemN "b", itemN "c"]] := by
  have hev : (splitLoopB lenTok 7 1 (fun c => stringify_node_content c 0) "list_container" [] 0
      "d" "docx" [itemN "a", itemN "b", itemN "c"] [] [] 0 []).2 =
      [[itemN "a", itemN "b"], [itemN "b", itemN "c"]] := by
    simp +decide [splitLoopB, flushChunk, seedOf, countType, create_chunk_text,
      stringify_node_content, itemN, itemD, indentStr, isBlank, lenTok]
  exact ⟨hev, (split_coverage lenTok 7 1 (fun c => stringify_node_content c 0)
    "list_container" [] 0 "d" "docx" [itemN "a", itemN "b", itemN "c"] []).2.2.2 _ _ hev⟩

/-! ### C5: list grouping invariant -/

/-- A closed frame yields a node satisfying the grouping invariant. -/
theorem NodeOk_of_frameOk (f : Frame) (h : frameOk f) :
    NodeOk (Node.node f.data f.children) :=
  NodeOk.mk _ _ h.2 h.1

/-- Closing the only open frame into the root list preserves the state
invariant. -/
theorem stateOk_pop_bottom (roots : List Node) (f : Frame)
    (h : stateOk (roots, [f])) :
    stateOk (roots ++ [Node.node f.data f.children], []) := by
  obtain ⟨h1, h2, _⟩ := h
  refine ⟨?_, ?_, trivial⟩
  · intro r hr
    rcases List.mem_append.1 hr with hr | hr
    · exact h1 r hr
    · simp only [List.mem_singleton] at hr
      subst hr
      exact NodeOk_of_frameOk f (h2 f (by simp))
  · intro f' hf'
    simp at hf'

/-- Closing the top frame into the frame below preserves the state
invariant. -/
theorem stateOk_pop_cons (roots : List Node) (f g : Frame) (r2 : List Frame)
    (h : stateOk (roots, f :: g :: r2)) :
    stateOk (roots, (⟨g.data, g.children ++ [Node.node f.data f.children]⟩ : Frame) :: r2) := by
  obtain ⟨h1, h2, h3⟩ := h
  have hf : frameOk f := h2 f (by simp)
  have hg : frameOk g := h2 g (by simp)
  simp only [adjOk] at h3
  obtain ⟨hfg, h3'⟩ := h3
  refine ⟨h1, ?_, ?_⟩
  · intro f' hf'
    rcases List.mem_cons.1 hf' with rfl | hf'
    · constructor
      · intro c hc
        rcases List.mem_append.1 hc with hc | hc
        · exact hg.1 c hc
        · simp only [List.mem_singleton] at hc
          subst hc
          exact NodeOk_of_frameOk f hf
      · intro hcont c hc hct
        rcases List.mem_append.1 hc with hc | hc
        · exact hg.2 hcont c hc hct
        · simp only [List.mem_singleton] at hc
          subst hc
          exact hfg hct hcont
    · exact h2 f' (List.mem_cons_of_mem _ (List.mem_cons_of_mem _ hf'))
  · cases r2 with
    | nil => trivial
    | cons u r3 =>
      simp only [adjOk] at h3' ⊢
      exact h3'

/-- The pop loops of the hierarchy builder preserve the state invariant. -/
theorem popWhile_stateOk (p : NData → Bool) (roots : List Node) (stack : List Frame) :
    stateOk (roots, stack) → stateOk (popWhile p roots stack) := by
  induction roots, stack using popWhile.induct p with
  | case1 roots =>
    intro h
    rw [popWhile.eq_def]
    exact h
  | case2 roots f hp ih =>
    intro h
    rw [popWhile.eq_def]
    simp only [hp, if_true]
    exact ih (stateOk_pop_bottom roots f h)
  | case3 roots f hp g r2 ih =>
    intro h
    rw [popWhile.eq_def]
    simp only [hp, if_true]
    exact ih (stateOk_pop_cons roots f g r2 h)
  | case4 roots f rest hp =>
    intro h
    have hp' : p f.data = false := by simpa using hp
    rw [popWhile.eq_def]
    simp only [hp', Bool.false_eq_true, if_false]
    exact h

/-- One step of the builder loop preserves the state invariant. -/
theorem step_stateOk (s : List Node × List Frame) (e : NData)
    (h : stateOk s) : stateOk (step s e) := by
  obtain ⟨roots, stack⟩ := s
  have hpwH := popWhile_stateOk (headingPopP e.level) roots stack h
  have hpwI := popWhile_stateOk (itemPopP e.level e.numId) roots stack h
  have hpwB := popWhile_stateOk blockPopP roots stack h
  unfold step
  cases he : e.typ with
  | heading =>
    rcases hx : popWhile (headingPopP e.level) roots stack with ⟨r', st'⟩
    rw [hx] at hpwH
    obtain ⟨k1, k2, k3⟩ := hpwH
    simp only [hx]
    refine ⟨k1, ?_, ?_⟩
    · intro f' hf'
      rcases List.mem_cons.1 hf' with rfl | hf'
      · exact ⟨by simp, by simp⟩
      · exact k2 f' hf'
    · cases st' with
      | nil => trivial
      | cons u r3 =>
        refine ⟨?_, k3⟩
        intro hit
        simp only [he] at hit
        cases hit
  | listItem =>
    rcases hx : popWhile (itemPopP e.level e.numId) roots stack with ⟨r', st'⟩
    rw [hx] at hpwI
    obtain ⟨k1, k2, k3⟩ := hpwI
    simp only [hx]
    cases st' with
    | nil =>
      refine ⟨k1, ?_, ?_⟩
      · intro f' hf'
        rcases List.mem_cons.1 hf' with rfl | hf'
        · exact ⟨by simp, by simp⟩
        · simp only [List.mem_singleton] at hf'
          subst hf'
          exact ⟨by simp, by simp⟩
      · exact ⟨fun _ _ => ⟨rfl, rfl⟩, trivial⟩
    | cons f rest =>
      dsimp only
      by_cases hc : f.data.typ = .listContainer ∧ f.data.numId = e.numId ∧ f.data.level = e.level
      · rw [if_pos hc]
        refine ⟨k1, ?_, ?_⟩
        · intro f' hf'
          rcases List.mem_cons.1 hf' with rfl | hf'
          · exact ⟨by simp, by simp⟩
          · exact k2 f' hf'
        · exact ⟨fun _ _ => ⟨hc.2.2.symm, hc.2.1.symm⟩, k3⟩
      · rw [if_neg hc]
        refine ⟨k1, ?_, ?_⟩
        · intro f' hf'
          rcases List.mem_cons.1 hf' with rfl | hf'
          · exact ⟨by simp, by simp⟩
          rcases List.mem_cons.1 hf' with rfl | hf'
          · exact ⟨by simp, by simp⟩
          · exact k2 f' hf'
        · refine ⟨fun _ _ => ⟨rfl, rfl⟩, ?_, k3⟩
          intro hit
          simp [containerData] at hit
  | paragraph =>
    rcases hx : popWhile blockPopP roots stack with ⟨r', st'⟩
    rw [hx] at hpwB
    obtain ⟨k1, k2, k3⟩ := hpwB
    simp only [hx]
    cases st' with
    | nil =>
      refine ⟨?_, by simp, trivial⟩
      intro r hr
      rcases List.mem_append.1 hr with hr | hr
      · exact k1 r hr
      · simp only [List.mem_singleton] at hr
        subst hr
        exact NodeOk.mk _ _ (by simp) (by simp)
    | cons f rest =>
      have hfok : frameOk f := k2 f (by simp)
      refine ⟨k1, ?_, ?_⟩
      · intro f' hf'
        rcases List.mem_cons.1 hf' with rfl | hf'
        · constructor
          · intro c hc
            rcases List.mem_append.1 hc with hc | hc
            · exact hfok.1 c hc
            · simp only [List.mem_singleton] at hc
              subst hc
              exact NodeOk.mk _ _ (by simp) (by simp)
          · intro hcont c hc hct
            rcases List.mem_append.1 hc with hc | hc
            · exact hfok.2 hcont c hc hct
            · simp only [List.mem_singleton] at hc
              subst hc
              simp only [Node.data, he] at hct
              cases hct
        · exact k2 f' (List.mem_cons_of_mem _ hf')
      · cases rest with
        | nil => trivial
        | cons u r3 =>
          simp only [adjOk] at k3 ⊢
          exact k3
  | table =>
    rcases hx : popWhile blockPopP roots stack with ⟨r', st'⟩
    rw [hx] at hpwB
    obtain ⟨k1, k2, k3⟩ := hpwB
    simp only [hx]
    cases st' with
    | nil =>
      refine ⟨?_, by simp, trivial⟩
      intro r hr
      rcases List.mem_append.1 hr with hr | hr
      · exact k1 r hr
      · simp only [List.mem_singleton] at hr
        subst hr
        exact NodeOk.mk _ _ (by simp) (by simp)
    | cons f rest =>
      have hfok : frameOk f := k2 f (by simp)
      refine ⟨k1, ?_, ?_⟩
      · intro f' hf'
        rcases List.mem_cons.1 hf' with rfl | hf'
        · constructor
          · intro c hc
            rcases List.mem_append.1 hc with hc | hc
            · exact hfok.1 c hc
            · simp only [List.mem_singleton] at hc
              subst hc
              exact NodeOk.mk _ _ (by simp) (by simp)
          · intro hcont c hc hct
            rcases List.mem_append.1 hc with hc | hc
            · exact hfok.2 hcont c hc hct
            · simp only [List.mem_singleton] at hc
              subst hc
              simp only [Node.data, he] at hct
              cases hct
        · exact k2 f' (List.mem_cons_of_mem _ hf')
      · cases rest with
        | nil => trivial
        | cons u r3 =>
          simp only [adjOk] at k3 ⊢
          exact k3
  | listContainer => exact h
  | other => exact h

/-- The whole builder loop preserves the state invariant. -/
theorem runM_stateOk (els : List NData) :
    ∀ s, stateOk s → stateOk (runM s els) := by
  induction els with
  | nil =>
    intro s h
    simpa [runM] using h
  | cons e rest ih =>
    intro s h
    simp only [runM, List.foldl_cons] at ih ⊢
    exact ih (step s e) (step_stateOk s e h)

/-- Closing all open frames of an invariant-satisfying state yields only
nodes satisfying the grouping invariant. -/
theorem closeAll_nodeOk (roots : List Node) (stack : List Frame) :
    stateOk (roots, stack) → ∀ r ∈ closeAll roots stack, NodeOk r := by
  induction roots, stack using closeAll.induct with
  | case1 roots =>
    intro h
    rw [closeAll.eq_def]
    exact h.1
  | case2 roots f ih =>
    intro h
    rw [closeAll.eq_def]
    exact ih (stateOk_pop_bottom roots f h)
  | case3 roots f g r2 ih =>
    intro h
    rw [closeAll.eq_def]
    exact ih (stateOk_pop_cons roots f g r2 h)

/-- C5: every tree produced by `_reconstruct_hierarchy` satisfies the
list-grouping invariant — each `list_item` child of a `list_container` node
shares the container's `level` (ilvl) and `num_id`. -/
theorem list_grouping_invariant (els : List NData) :
    ∀ r ∈ reconstruct_hierarchy els, NodeOk r := by
  have h1 : stateOk (runM ([], []) els) :=
    runM_stateOk els ([], []) ⟨by simp, by simp, trivial⟩
  rcases hx : runM ([], []) els with ⟨R, st⟩
  rw [hx] at h1
  rw [reconstruct_hierarchy, hx]
  exact closeAll_nodeOk R st h1

theorem list_grouping_invariant_witness :
    NodeOk (Node.node (containerData (itemD "a")) [Node.node (itemD "a") []]) :=
  list_grouping_invariant [itemD "a"] _ (by
    have hev : reconstruct_hierarchy [itemD "a"] =
        [Node.node (containerData (itemD "a")) [Node.node (itemD "a") []]] := by
      simp +decide [reconstruct_hierarchy, runM, step, popWhile, closeAll, itemD,
        containerData, itemPopP]
    rw [hev]
    exact List.mem_singleton.mpr rfl)

/-! ### C6 infrastructure -/

theorem runM_nil (s : List Node × List Frame) : runM s [] = s := rfl

theorem runM_cons (s : List Node × List Frame) (e : NData) (l : List NData) :
    runM s (e :: l) = runM (step s e) l := rfl

theorem runM_append (s : List Node × List Frame) (a b : List NData) :
    runM s (a ++ b) = runM (runM s a) b := by
  simp [runM, List.foldl_append]

/-- The builder never looks at the accumulated root list: a prefix of already
closed roots passes through every pop loop untouched. -/
theorem popWhile_roots (p : NData → Bool) (R : List Node) :
    ∀ (roots : List Node) (stack : List Frame),
      popWhile p (R ++ roots) stack =
        (R ++ (popWhile p roots stack).1, (popWhile p roots stack).2) := by
  intro roots stack
  induction roots, stack using popWhile.induct p with
  | case1 roots =>
    rw [popWhile.eq_def]
    conv_rhs => rw [popWhile.eq_def]
  | case2 roots f hp ih =>
    rw [popWhile.eq_def]
    simp only [hp, if_true]
    rw [List.append_assoc, ih]
    conv_rhs => rw [popWhile.eq_def]
    simp only [hp, if_true]
  | case3 roots f hp g r2 ih =>
    rw [popWhile.eq_def]
    simp only [hp, if_true]
    rw [ih]
    conv_rhs => rw [popWhile.eq_def]
    simp only [hp, if_true]
  | case4 roots f rest hp =>
    have hp' : p f.data = false := by simpa using hp
    rw [popWhile.eq_def]
    simp only [hp', Bool.false_eq_true, if_false]
    conv_rhs => rw [popWhile.eq_def]
    simp only [hp', Bool.false_eq_true, if_false]

/-- Closing all frames likewise ignores already closed roots. -/
theorem closeAll_roots (R : List Node) :
    ∀ (roots : List Node) (stack : List Frame),
      closeAll (R ++ roots) stack = R ++ closeAll roots stack := by
  intro roots stack
  induction roots, stack using closeAll.induct with
  | case1 roots =>
    rw [closeAll.eq_def]
    conv_rhs => rw [closeAll.eq_def]
  | case2 roots f ih =>
    rw [closeAll.eq_def]
    dsimp only
    rw [List.append_assoc, ih]
    conv_rhs => rw [closeAll.eq_def]
  | case3 roots f g r2 ih =>
    rw [closeAll.eq_def]
    dsimp only
    rw [ih]
    conv_rhs => rw [closeAll.eq_def]

/-- One builder step ignores already closed roots. -/
theorem step_roots (e : NData) (R ro : List Node) (st : List Frame) :
    step (R ++ ro, st) e = (R ++ (step (ro, st) e).1, (step (ro, st) e).2) := by
  unfold step
  cases he : e.typ with
  | heading =>
    rcases hq : popWhile (headingPopP e.level) ro st with ⟨r1, st1⟩
    have hR := popWhile_roots (headingPopP e.level) R ro st
    rw [hq] at hR
    simp only [hR, hq]
  | listItem =>
    rcases hq : popWhile (itemPopP e.level e.numId) ro st with ⟨r1, st1⟩
    have hR := popWhile_roots (itemPopP e.level e.numId) R ro st
    rw [hq] at hR
    simp only [hR, hq]
    cases st1 with
    | nil => rfl
    | cons f rest =>
      dsimp only
      by_cases hc : f.data.typ = .listContainer ∧ f.data.numId = e.numId ∧ f.data.level = e.level
      · rw [if_pos hc, if_pos hc]
      · rw [if_neg hc, if_neg hc]
  | paragraph =>
    rcases hq : popWhile blockPopP ro st with ⟨r1, st1⟩
    have hR := popWhile_roots blockPopP R ro st
    rw [hq] at hR
    simp only [hR, hq]
    cases st1 with
    | nil => simp
    | cons f rest => rfl
  | table =>
    rcases hq : popWhile blockPopP ro st with ⟨r1, st1⟩
    have hR := popWhile_roots blockPopP R ro st
    rw [hq] at hR
    simp only [hR, hq]
    cases st1 with
    | nil => simp
    | cons f rest => rfl
  | listContainer => rfl
  | other => rfl

/-- The whole builder loop ignores already closed roots. -/
theorem runM_roots (els : List NData) :
    ∀ (R ro : List Node) (st : List Frame),
      runM (R ++ ro, st) els = (R ++ (runM (ro, st) els).1, (runM (ro, st) els).2) := by
  induction els with
  | nil => intro R ro st; rfl
  | cons e rest ih =>
    intro R ro st
    rcases hq : step (ro, st) e with ⟨q1, q2⟩
    rw [runM_cons, step_roots, hq, runM_cons, hq]
    exact ih R q1 q2

/-- Unfolding equations for the pop loop. -/
theorem popWhile_nil (p : NData → Bool) (roots : List Node) :
    popWhile p roots [] = (roots, []) := by
  rw [popWhile.eq_def]

theorem popWhile_cons_pos_nil (p : NData → Bool) (roots : List Node) (f : Frame)
    (hp : p f.data = true) :
    popWhile p roots [f] = popWhile p (roots ++ [Node.node f.data f.children]) [] := by
  rw [popWhile.eq_def]
  simp only [hp, if_true]

theorem popWhile_cons_pos_cons (p : NData → Bool) (roots : List Node) (f g : Frame)
    (r2 : List Frame) (hp : p f.data = true) :
    popWhile p roots (f :: g :: r2) =
      popWhile p roots (⟨g.data, g.children ++ [Node.node f.data f.children]⟩ :: r2) := by
  rw [popWhile.eq_def]
  simp only [hp, if_true]

theorem popWhile_cons_neg (p : NData → Bool) (roots : List Node) (f : Frame)
    (rest : List Frame) (hp : p f.data = false) :
    popWhile p roots (f :: rest) = (roots, f :: rest) := by
  rw [popWhile.eq_def]
  simp only [hp, Bool.false_eq_true, if_false]

/-- Unfolding equations for the final close loop. -/
theorem closeAll_nil (roots : List Node) : closeAll roots [] = roots := by
  rw [closeAll.eq_def]

theorem closeAll_single (roots : List Node) (f : Frame) :
    closeAll roots [f] = roots ++ [Node.node f.data f.children] := by
  rw [closeAll.eq_def]
  dsimp only
  rw [closeAll.eq_def]

theorem closeAll_cons2 (roots : List Node) (f g : Frame) (r2 : List Frame) :
    closeAll roots (f :: g :: r2) =
      closeAll roots (⟨g.data, g.children ++ [Node.node f.data f.children]⟩ :: r2) := by
  rw [closeAll.eq_def]

/-- Pop loops do not reach below a stack entry whose data fails the pop
condition: running above a protected bottom frame is running the projected
machine whose roots are that frame's children. -/
theorem popWhile_phi (p : NData → Bool) (hd : NData) (hp : p hd = false) :
    ∀ (pr : List Node) (stack : List Frame) (R : List Node),
      popWhile p R (stack ++ [⟨hd, pr⟩]) =
        (R, (popWhile p pr stack).2 ++ [⟨hd, (popWhile p pr stack).1⟩]) := by
  intro pr stack
  induction pr, stack using popWhile.induct p with
  | case1 pr =>
    intro R
    simp only [List.nil_append]
    rw [popWhile_cons_neg p R (Frame.mk hd pr) [] hp, popWhile_nil]
    rfl
  | case2 pr f hp2 ih =>
    intro R
    simp only [List.cons_append, List.nil_append]
    rw [popWhile_cons_pos_cons p R f (Frame.mk hd pr) [] hp2]
    have ih' := ih R
    simp only [List.nil_append] at ih'
    rw [ih', popWhile_cons_pos_nil p pr f hp2]
  | case3 pr f hp2 g r2 ih =>
    intro R
    simp only [List.cons_append]
    rw [popWhile_cons_pos_cons p R f g (r2 ++ [Frame.mk hd pr]) hp2]
    have ih' := ih R
    simp only [List.cons_append] at ih'
    rw [ih', popWhile_cons_pos_cons p pr f g r2 hp2]
  | case4 pr f rest hp2 =>
    intro R
    have hp' : p f.data = false := by simpa using hp2
    simp only [List.cons_append]
    rw [popWhile_cons_neg p R f (rest ++ [Frame.mk hd pr]) hp', popWhile_cons_neg p pr f rest hp']
    rfl

/-- When every open frame satisfies the pop condition, the pop loop closes
the whole stack. -/
theorem popWhile_all (p : NData → Bool) :
    ∀ (roots : List Node) (stack : List Frame),
      (∀ f ∈ stack, p f.data = true) →
      popWhile p roots stack = (closeAll roots stack, []) := by
  intro roots stack
  induction roots, stack using popWhile.induct p with
  | case1 roots =>
    intro _
    rw [popWhile_nil, closeAll_nil]
  | case2 roots f hp ih =>
    intro _
    rw [popWhile_cons_pos_nil p roots f hp, ih (by simp), closeAll_nil, closeAll_single]
  | case3 roots f hp g r2 ih =>
    intro h
    rw [popWhile_cons_pos_cons p roots f g r2 hp, closeAll_cons2]
    refine ih ?_
    intro f' hf'
    rcases List.mem_cons.1 hf' with rfl | hf'
    · exact h g (by simp)
    · exact h f' (by simp [hf'])
  | case4 roots f rest hp =>
    intro h
    exact absurd (h f (by simp)) hp

/-- Closing a stack with a protected bottom frame produces the node of that
frame, whose children are the closure of the projected machine. -/
theorem closeAll_phi (hd : NData) :
    ∀ (pr : List Node) (stack : List Frame) (R : List Node),
      closeAll R (stack ++ [⟨hd, pr⟩]) = R ++ [Node.node hd (closeAll pr stack)] := by
  intro pr stack
  induction pr, stack using closeAll.induct with
  | case1 pr =>
    intro R
    simp only [List.nil_append]
    rw [closeAll_single, closeAll_nil]
  | case2 pr f ih =>
    intro R
    simp only [List.cons_append, List.nil_append]
    rw [closeAll_cons2 R f (Frame.mk hd pr) []]
    have ih' := ih R
    simp only [List.nil_append] at ih'
    rw [ih', closeAll_single, closeAll_nil]
  | case3 pr f g r2 ih =>
    intro R
    simp only [List.cons_append]
    rw [closeAll_cons2 R f g (r2 ++ [Frame.mk hd pr])]
    have ih' := ih R
    simp only [List.cons_append] at ih'
    rw [ih', closeAll_cons2 pr f g r2]

/-- Every frame left on the stack by a pop loop carries the data of some
input frame. -/
theorem popWhile_data (p : NData → Bool) :
    ∀ (roots : List Node) (stack : List Frame) (f : Frame),
      f ∈ (popWhile p roots stack).2 → ∃ g ∈ stack, f.data = g.data := by
  intro roots stack
  induction roots, stack using popWhile.induct p with
  | case1 roots =>
    intro f hf
    rw [popWhile_nil] at hf
    simp at hf
  | case2 roots f2 hp ih =>
    intro f hf
    rw [popWhile_cons_pos_nil p roots f2 hp] at hf
    obtain ⟨g, hg, _⟩ := ih f hf
    simp at hg
  | case3 roots f2 hp g r2 ih =>
    intro f hf
    rw [popWhile_cons_pos_cons p roots f2 g r2 hp] at hf
    obtain ⟨u, hu, hud⟩ := ih f hf
    rcases List.mem_cons.1 hu with rfl | hu
    · exact ⟨g, by simp, hud⟩
    · exact ⟨u, by simp [hu], hud⟩
  | case4 roots f2 rest hp =>
    intro f hf
    have hp' : p f2.data = false := by simpa using hp
    rw [popWhile_cons_neg p roots f2 rest hp'] at hf
    exact ⟨f, hf, rfl⟩

/-- One builder step never reaches below a bottom heading frame that no
element of strictly greater scope can close: the step acts as the projected
machine inside that heading's children. -/
theorem step_phi (hd : NData) (hhd : hd.typ = NType.heading) (e : NData)
    (helev : e.typ = NType.heading → hd.level < e.level)
    (pr : List Node) (pst : List Frame) (R : List Node) :
    step (R, pst ++ [⟨hd, pr⟩]) e =
      (R, (step (pr, pst) e).2 ++ [⟨hd, (step (pr, pst) e).1⟩]) := by
  unfold step
  cases het : e.typ with
  | heading =>
    have hp : headingPopP e.level hd = false := by
      have := helev het
      simp only [headingPopP, hhd]
      simp
      omega
    have hphi := popWhile_phi (headingPopP e.level) hd hp pr pst R
    rcases hq : popWhile (headingPopP e.level) pr pst with ⟨q1, q2⟩
    rw [hq] at hphi
    simp only [hphi, hq]
    rfl
  | listItem =>
    have hp : itemPopP e.level e.numId hd = false := by
      simp [itemPopP, hhd]
    have hphi := popWhile_phi (itemPopP e.level e.numId) hd hp pr pst R
    rcases hq : popWhile (itemPopP e.level e.numId) pr pst with ⟨q1, q2⟩
    rw [hq] at hphi
    simp only [hphi, hq]
    cases q2 with
    | nil =>
      simp only [List.nil_append]
      rw [if_neg (by simp [hhd])]
      rfl
    | cons f rest =>
      simp only [List.cons_append]
      by_cases hc : f.data.typ = NType.listContainer ∧ f.data.numId = e.numId ∧
          f.data.level = e.level
      · rw [if_pos hc, if_pos hc]
        rfl
      · rw [if_neg hc, if_neg hc]
        rfl
  | paragraph =>
    have hp : blockPopP hd = false := by simp [blockPopP, hhd]
    have hphi := popWhile_phi blockPopP hd hp pr pst R
    rcases hq : popWhile blockPopP pr pst with ⟨q1, q2⟩
    rw [hq] at hphi
    simp only [hphi, hq]
    cases q2 with
    | nil =>
      simp only [List.nil_append]
    | cons f rest =>
      simp only [List.cons_append]
  | table =>
    have hp : blockPopP hd = false := by simp [blockPopP, hhd]
    have hphi := popWhile_phi blockPopP hd hp pr pst R
    rcases hq : popWhile blockPopP pr pst with ⟨q1, q2⟩
    rw [hq] at hphi
    simp only [hphi, hq]
    cases q2 with
    | nil =>
      simp only [List.nil_append]
    | cons f rest =>
      simp only [List.cons_append]
  | listContainer => rfl
  | other => rfl

/-- The whole loop over elements that cannot close a bottom heading frame
acts as the projected machine inside that heading's children. -/
theorem runM_phi (hd : NData) (hhd : hd.typ = NType.heading) :
    ∀ (els : List NData) (pr : List Node) (pst : List Frame) (R : List Node),
      (∀ x ∈ els, x.typ = NType.heading → hd.level < x.level) →
      runM (R, pst ++ [⟨hd, pr⟩]) els =
        (R, (runM (pr, pst) els).2 ++ [⟨hd, (runM (pr, pst) els).1⟩]) := by
  intro els
  induction els with
  | nil =>
    intro pr pst R _
    rfl
  | cons e rest ih =>
    intro pr pst R h
    rcases hq : step (pr, pst) e with ⟨q1, q2⟩
    rw [runM_cons, step_phi hd hhd e (h e (by simp)) pr pst R, hq, runM_cons, hq]
    exact ih q1 q2 R (fun x hx => h x (by simp [hx]))

/-- Data-level classification of the frames a step can leave on the stack:
anything already there (possibly with new children), the element itself when
it is a heading or list item, or a synthesized container. -/
theorem step_stack_pred (P : NData → Prop) (hPc : ∀ d, P (containerData d)) (e : NData)
    (hPe : e.typ = NType.heading ∨ e.typ = NType.listItem → P e)
    (s : List Node × List Frame) (hs : ∀ f ∈ s.2, P f.data) :
    ∀ f ∈ (step s e).2, P f.data := by
  obtain ⟨ro, st⟩ := s
  unfold step
  cases het : e.typ with
  | heading =>
    rcases hq : popWhile (headingPopP e.level) ro st with ⟨q1, q2⟩
    simp only [hq]
    intro f hf
    rcases List.mem_cons.1 hf with rfl | hf
    · exact hPe (Or.inl het)
    · obtain ⟨g, hg, hdd⟩ := popWhile_data _ ro st f (by rw [hq]; exact hf)
      rw [hdd]
      exact hs g hg
  | listItem =>
    rcases hq : popWhile (itemPopP e.level e.numId) ro st with ⟨q1, q2⟩
    simp only [hq]
    cases q2 with
    | nil =>
      intro f hf
      simp only [List.mem_cons, List.mem_singleton, List.not_mem_nil, or_false] at hf
      rcases hf with rfl | rfl
      · exact hPe (Or.inr het)
      · exact hPc e
    | cons f2 rest =>
      dsimp only
      by_cases hc : f2.data.typ = NType.listContainer ∧ f2.data.numId = e.numId ∧
          f2.data.level = e.level
      · rw [if_pos hc]
        intro f hf
        rcases List.mem_cons.1 hf with rfl | hf
        · exact hPe (Or.inr het)
        · obtain ⟨g, hg, hdd⟩ := popWhile_data _ ro st f (by rw [hq]; exact hf)
          rw [hdd]
          exact hs g hg
      · rw [if_neg hc]
        intro f hf
        rcases List.mem_cons.1 hf with rfl | hf
        · exact hPe (Or.inr het)
        rcases List.mem_cons.1 hf with rfl | hf
        · exact hPc e
        · obtain ⟨g, hg, hdd⟩ := popWhile_data _ ro st f (by rw [hq]; exact hf)
          rw [hdd]
          exact hs g hg
  | paragraph =>
    rcases hq : popWhile blockPopP ro st with ⟨q1, q2⟩
    simp only [hq]
    cases q2 with
    | nil =>
      intro f hf
      simp at hf
    | cons f2 rest =>
      intro f hf
      rcases List.mem_cons.1 hf with rfl | hf
      · obtain ⟨g, hg, hdd⟩ := popWhile_data _ ro st f2 (by rw [hq]; simp)
        rw [show (Frame.mk f2.data (f2.children ++ [Node.node e []])).data = f2.data from rfl, hdd]
        exact hs g hg
      · obtain ⟨g, hg, hdd⟩ := popWhile_data _ ro st f (by rw [hq]; simp [hf])
        rw [hdd]
        exact hs g hg
  | table =>
    rcases hq : popWhile blockPopP ro st with ⟨q1, q2⟩
    simp only [hq]
    cases q2 with
    | nil =>
      intro f hf
      simp at hf
    | cons f2 rest =>
      intro f hf
      rcases List.mem_cons.1 hf with rfl | hf
      · obtain ⟨g, hg, hdd⟩ := popWhile_data _ ro st f2 (by rw [hq]; simp)
        rw [show (Frame.mk f2.data (f2.children ++ [Node.node e []])).data = f2.data from rfl, hdd]
        exact hs g hg
      · obtain ⟨g, hg, hdd⟩ := popWhile_data _ ro st f (by rw [hq]; simp [hf])
        rw [hdd]
        exact hs g hg
  | listContainer => exact hs
  | other => exact hs

/-- Classification of the frames the loop can leave on the stack. -/
theorem runM_stack_pred (P : NData → Prop) (hPc : ∀ d, P (containerData d)) :
    ∀ (els : List NData) (s : List Node × List Frame),
      (∀ x ∈ els, x.typ = NType.heading ∨ x.typ = NType.listItem → P x) →
      (∀ f ∈ s.2, P f.data) → ∀ f ∈ (runM s els).2, P f.data := by
  intro els
  induction els with
  | nil =>
    intro s _ hs
    exact hs
  | cons e rest ih =>
    intro s hels hs
    rw [runM_cons]
    exact ih (step s e) (fun x hx hh => hels x (by simp [hx]) hh)
      (step_stack_pred P hPc e (hels e (by simp)) s hs)

/-- A heading arriving at an empty stack just opens its frame. -/
theorem step_heading_start (e : NData) (he : e.typ = NType.heading) (R : List Node) :
    step (R, []) e = (R, [⟨e, []⟩]) := by
  unfold step
  rw [he]
  dsimp only
  rw [popWhile_nil]

/-- The first element dropped by `dropWhile` fails the predicate. -/
theorem dropWhile_head_false {α : Type} (p : α → Bool) :
    ∀ (l : List α) (x : α) (xs : List α), l.dropWhile p = x :: xs → p x = false := by
  intro l
  induction l with
  | nil =>
    intro x xs h
    simp [List.dropWhile] at h
  | cons a l ih =>
    intro x xs h
    by_cases hpa : p a = true
    · rw [List.dropWhile_cons_of_pos hpa] at h
      exact ih x xs h
    · rw [List.dropWhile_cons_of_neg hpa] at h
      obtain ⟨rfl, -⟩ := List.cons.inj h
      simpa using hpa

/-- Unfolding equations for the spec-side scoping function. -/
theorem specF_nil : specF [] = [] := by
  rw [specF.eq_def]

theorem specF_cons (e : NData) (rest : List NData) :
    specF (e :: rest) =
      if _h : e.typ = NType.heading then
        Node.node e (specF (rest.takeWhile (fun x => !closesHeadingB e.level x))) ::
          specF (rest.dropWhile (fun x => !closesHeadingB e.level x))
      else
        reconstruct_hierarchy ((e :: rest).takeWhile (fun x => x.typ != NType.heading)) ++
          specF ((e :: rest).dropWhile (fun x => x.typ != NType.heading)) := by
  rw [specF.eq_def]

/-- The refinement, by strong induction on the element list's length. -/
theorem reconstruct_spec_aux :
    ∀ (n : Nat) (els : List NData), els.length ≤ n →
      reconstruct_hierarchy els = specF els := by
  intro n
  induction n with
  | zero =>
    intro els hlen
    have h0 : els = [] := List.length_eq_zero.1 (Nat.le_zero.1 hlen)
    subst h0
    rw [reconstruct_hierarchy, runM_nil, specF_nil]
    dsimp only
    rw [closeAll_nil]
  | succ n ih =>
    intro els hlen
    rcases els with _ | ⟨e, rest⟩
    · rw [reconstruct_hierarchy, runM_nil, specF_nil]
      dsimp only
      rw [closeAll_nil]
    · have hrest : rest.length ≤ n := by simpa using hlen
      by_cases he : e.typ = NType.heading
      · -- heading head: its scope is the take/drop split of `rest`
        have hins_len : (rest.takeWhile (fun x => !closesHeadingB e.level x)).length ≤ n :=
          le_trans (List.takeWhile_sublist _).length_le hrest
        have hins_cond : ∀ x ∈ rest.takeWhile (fun x => !closesHeadingB e.level x),
            x.typ = NType.heading → e.level < x.level := by
          intro x hx hxh
          have hmem := List.mem_takeWhile_imp hx
          simp [closesHeadingB, hxh] at hmem
          omega
        rcases hqi : runM (([] : List Node), ([] : List Frame))
            (rest.takeWhile (fun x => !closesHeadingB e.level x)) with ⟨Rin, stin⟩
        have hphi := runM_phi e he (rest.takeWhile (fun x => !closesHeadingB e.level x))
            [] [] [] hins_cond
        rw [hqi] at hphi
        simp only [List.nil_append] at hphi
        have hstart : runM (([] : List Node), ([] : List Frame)) (e :: rest)
            = runM (([] : List Node), [(⟨e, []⟩ : Frame)]) rest := by
          rw [runM_cons, step_heading_start e he]
        have hsplitrest : (rest.takeWhile (fun x => !closesHeadingB e.level x)) ++
            (rest.dropWhile (fun x => !closesHeadingB e.level x)) = rest :=
          List.takeWhile_append_dropWhile _ _
        have hclass : ∀ f ∈ stin, f.data.typ = NType.listContainer ∨
            f.data.typ = NType.listItem ∨
            (f.data.typ = NType.heading ∧ e.level < f.data.level) := by
          have hall := runM_stack_pred (fun d => d.typ = NType.listContainer ∨
              d.typ = NType.listItem ∨ (d.typ = NType.heading ∧ e.level < d.level))
            (fun _ => Or.inl rfl)
            (rest.takeWhile (fun x => !closesHeadingB e.level x)) ([], [])
            (by
              intro x hx hxt
              rcases hxt with hxt | hxt
              · exact Or.inr (Or.inr ⟨hxt, hins_cond x hx hxt⟩)
              · exact Or.inr (Or.inl hxt))
            (by simp)
          intro f hf
          exact hall f (by rw [hqi]; exact hf)
        have hrec_ins : reconstruct_hierarchy
            (rest.takeWhile (fun x => !closesHeadingB e.level x)) = closeAll Rin stin := by
          rw [reconstruct_hierarchy, hqi]
        cases haft : rest.dropWhile (fun x => !closesHeadingB e.level x) with
        | nil =>
          have htake_eq : rest.takeWhile (fun x => !closesHeadingB e.level x) = rest := by
            have h1 := hsplitrest
            rw [haft, List.append_nil] at h1
            exact h1
          have hrun : runM (([] : List Node), ([] : List Frame)) (e :: rest) =
              ([], stin ++ [(⟨e, Rin⟩ : Frame)]) := by
            rw [hstart]
            conv_lhs => rw [← htake_eq]
            exact hphi
          have hL : reconstruct_hierarchy (e :: rest) =
              [Node.node e (closeAll Rin stin)] := by
            rw [reconstruct_hierarchy, hrun]
            dsimp only
            rw [closeAll_phi e Rin stin []]
            rfl
          rw [hL, specF_cons, dif_pos he, haft, specF_nil, ← hrec_ins, ih _ hins_len]
        | cons c aft2 =>
          have hcfalse : (!closesHeadingB e.level c) = false :=
            dropWhile_head_false _ rest c aft2 haft
          have hcclose : closesHeadingB e.level c = true := by simpa using hcfalse
          have hcty : c.typ = NType.heading := by
            have h1 := hcclose
            simp [closesHeadingB] at h1
            exact h1.1
          have hclev : c.level ≤ e.level := by
            have h1 := hcclose
            simp [closesHeadingB] at h1
            exact h1.2
          have hpop : ∀ f ∈ stin ++ [(⟨e, Rin⟩ : Frame)],
              headingPopP c.level f.data = true := by
            intro f hf
            rcases List.mem_append.1 hf with hf | hf
            · rcases hclass f hf with h1 | h1 | h1
              · simp [headingPopP, h1]
              · simp [headingPopP, h1]
              · simp only [headingPopP, h1.1]
                simp
                omega
            · simp only [List.mem_singleton] at hf
              subst hf
              simp only [headingPopP]
              simp [he]
              omega
          have hstep : step (([] : List Node), stin ++ [(⟨e, Rin⟩ : Frame)]) c =
              ([Node.node e (closeAll Rin stin)], [(⟨c, []⟩ : Frame)]) := by
            unfold step
            rw [hcty]
            dsimp only
            rw [popWhile_all _ _ _ hpop, closeAll_phi e Rin stin []]
            rfl
          have hrunfull : runM (([] : List Node), ([] : List Frame)) (e :: rest) =
              runM ([Node.node e (closeAll Rin stin)], [(⟨c, []⟩ : Frame)]) aft2 := by
            rw [hstart]
            conv_lhs => rw [← hsplitrest]
            rw [runM_append, hphi, haft, runM_cons, hstep]
          rcases hqa : runM (([] : List Node), ([] : List Frame)) (c :: aft2) with ⟨Ra, sta⟩
          have hinner : runM (([] : List Node), [(⟨c, []⟩ : Frame)]) aft2 = (Ra, sta) := by
            rw [show (([] : List Node), [(⟨c, []⟩ : Frame)]) =
                step (([] : List Node), ([] : List Frame)) c from
                (step_heading_start c hcty []).symm, ← runM_cons, hqa]
          have hR0 := runM_roots aft2 [Node.node e (closeAll Rin stin)] [] [(⟨c, []⟩ : Frame)]
          rw [List.append_nil, hinner] at hR0
          dsimp only at hR0
          have haft2_len : (c :: aft2).length ≤ n := by
            have h1 : (rest.dropWhile (fun x => !closesHeadingB e.level x)).length ≤
                rest.length := (List.dropWhile_sublist _).length_le
            rw [haft] at h1
            simp only [List.length_cons] at h1 ⊢
            omega
          have hrec_aft : reconstruct_hierarchy (c :: aft2) = closeAll Ra sta := by
            rw [reconstruct_hierarchy, hqa]
          rw [reconstruct_hierarchy, hrunfull, hR0]
          dsimp only
          rw [closeAll_roots, specF_cons, dif_pos he, haft, ← hrec_ins, ih _ hins_len,
            ← hrec_aft, ih _ haft2_len]
          rfl
      · -- non-heading head: a heading-free run, then the rest
        have hpe : (e.typ != NType.heading) = true := by simpa using he
        have hsplit : (e :: rest).takeWhile (fun x => x.typ != NType.heading) ++
            (e :: rest).dropWhile (fun x => x.typ != NType.heading) = e :: rest :=
          List.takeWhile_append_dropWhile _ _
        rcases hqr : runM (([] : List Node), ([] : List Frame))
            ((e :: rest).takeWhile (fun x => x.typ != NType.heading)) with ⟨Rr, str⟩
        have hrecr : reconstruct_hierarchy
            ((e :: rest).takeWhile (fun x => x.typ != NType.heading)) = closeAll Rr str := by
          rw [reconstruct_hierarchy, hqr]
        have hclass : ∀ f ∈ str, f.data.typ = NType.listContainer ∨
            f.data.typ = NType.listItem := by
          have hall := runM_stack_pred
            (fun d => d.typ = NType.listContainer ∨ d.typ = NType.listItem)
            (fun _ => Or.inl rfl) ((e :: rest).takeWhile (fun x => x.typ != NType.heading))
            ([], [])
            (by
              intro x hx hxt
              rcases hxt with hxt | hxt
              · have hmem := List.mem_takeWhile_imp hx
                rw [hxt] at hmem
                simp at hmem
              · exact Or.inr hxt)
            (by simp)
          intro f hf
          exact hall f (by rw [hqr]; exact hf)
        cases haft : (e :: rest).dropWhile (fun x => x.typ != NType.heading) with
        | nil =>
          have htake_eq : (e :: rest).takeWhile (fun x => x.typ != NType.heading) =
              e :: rest := by
            have h1 := hsplit
            rw [haft, List.append_nil] at h1
            exact h1
          have hL : reconstruct_hierarchy (e :: rest) =
              reconstruct_hierarchy
                ((e :: rest).takeWhile (fun x => x.typ != NType.heading)) := by
            rw [htake_eq]
          rw [hL, specF_cons, dif_neg he, haft, specF_nil, List.append_nil]
        | cons h2 aft2 =>
          have hh2f : (h2.typ != NType.heading) = false :=
            dropWhile_head_false _ (e :: rest) h2 aft2 haft
          have hh2 : h2.typ = NType.heading := by simpa using hh2f
          have hpop : ∀ f ∈ str, headingPopP h2.level f.data = true := by
            intro f hf
            rcases hclass f hf with h1 | h1 <;> simp [headingPopP, h1]
          have hstep : step (Rr, str) h2 = (closeAll Rr str, [(⟨h2, []⟩ : Frame)]) := by
            unfold step
            rw [hh2]
            dsimp only
            rw [popWhile_all _ _ _ hpop]
          have hrunfull : runM (([] : List Node), ([] : List Frame)) (e :: rest) =
              runM (closeAll Rr str, [(⟨h2, []⟩ : Frame)]) aft2 := by
            conv_lhs => rw [← hsplit]
            rw [runM_append, hqr, haft, runM_cons, hstep]
          rcases hqa : runM (([] : List Node), ([] : List Frame)) (h2 :: aft2) with ⟨Ra, sta⟩
          have hinner : runM (([] : List Node), [(⟨h2, []⟩ : Frame)]) aft2 = (Ra, sta) := by
            rw [show (([] : List Node), [(⟨h2, []⟩ : Frame)]) =
                step (([] : List Node), ([] : List Frame)) h2 from
                (step_heading_start h2 hh2 []).symm, ← runM_cons, hqa]
          have hR0 := runM_roots aft2 (closeAll Rr str) [] [(⟨h2, []⟩ : Frame)]
          rw [List.append_nil, hinner] at hR0
          dsimp only at hR0
          have haft_len : (h2 :: aft2).length ≤ n := by
            have h1 : ((e :: rest).dropWhile (fun x => x.typ != NType.heading)).length ≤
                rest.length := by
              have h2 : (e :: rest).dropWhile (fun x => x.typ != NType.heading) =
                  rest.dropWhile (fun x => x.typ != NType.heading) := by
                rw [List.dropWhile_cons]
                simp [hpe]
              rw [h2]
              exact (List.dropWhile_sublist _).length_le
            rw [haft] at h1
            simp only [List.length_cons] at h1 ⊢
            omega
          have hreca : reconstruct_hierarchy (h2 :: aft2) = closeAll Ra sta := by
            rw [reconstruct_hierarchy, hqa]
          rw [reconstruct_hierarchy, hrunfull, hR0]
          dsimp only
          rw [closeAll_roots, specF_cons, dif_neg he, haft, ← hrecr, ← hreca, ih _ haft_len]

/-- C6: `_reconstruct_hierarchy` realizes the spec's heading scoping — its
output equals the spec-modelled `specF`, which nests under each heading
exactly the elements up to (but excluding) the next heading of level ≤ its
own, for every input. -/
theorem heading_scoping (els : List NData) :
    reconstruct_hierarchy els = specF els :=
  reconstruct_spec_aux els.length els le_rfl
